import Mathlib

/-!
# Verification of the `vectorfoil` occlusion renderer core

A shallow embedding, over exact rationals, of the geometric predicate
library (`src/intersect.rs`), the primitive model (`src/primitive.rs`),
the polygon accumulation API and the `render()` pipeline
(`src/renderer.rs`), and the output flattening (`src/render_paths.rs`).

All floating-point (`f64`) arithmetic of the source is modelled over `ℚ`.
The source compares Euclidean norms (square roots) only against
nonnegative quantities; those comparisons are encoded here by comparing
squares, which is equivalent over the reals and keeps every definition
executable.  Each such encoding is noted at the definition it concerns.
Rust panics (`panic!`, `expect`, out-of-bounds indexing, `usize`
underflow) are modelled by `Option`/`none`.
-/

set_option maxRecDepth 8000

namespace Vectorfoil

/-- 2D point with rational coordinates, modelling `DVec2`. -/
structure Vec2 where
  x : ℚ
  y : ℚ
deriving DecidableEq, Repr

/-- 3D point with rational coordinates, modelling `DVec3`. -/
structure Vec3 where
  x : ℚ
  y : ℚ
  z : ℚ
deriving DecidableEq, Repr

/-- 4D homogeneous point with rational coordinates, modelling `DVec4`. -/
structure Vec4 where
  x : ℚ
  y : ℚ
  z : ℚ
  w : ℚ
deriving DecidableEq, Repr

instance : Sub Vec2 := ⟨fun a b => ⟨a.x - b.x, a.y - b.y⟩⟩

/-- The `.xy()` swizzle of a `DVec4`. -/
def Vec4.xy (v : Vec4) : Vec2 := ⟨v.x, v.y⟩

/-- Squared Euclidean norm of a 2D vector.  The source uses
`norm()` (with a square root); all of its uses compare a norm, or a
product of norms, against nonnegative bounds, which we encode by
comparing squares. -/
def normSq (v : Vec2) : ℚ := v.x * v.x + v.y * v.y

/-- 2D cross product `a.x * b.y - a.y * b.x` as it appears inline in
`is_degen_tri` and `winding_2d`. -/
def cross2 (a b : Vec2) : ℚ := a.x * b.y - a.y * b.x

/-- `EPS` from `src/common.rs`. -/
def EPS : ℚ := 1 / 100000

/-- `LINE_LENGTH_EPS` from `src/common.rs`. -/
def LINE_LENGTH_EPS : ℚ := 1 / 100000

/-- `EdgeType` from `src/primitive.rs`. -/
inductive EdgeType where
  | Visible
  | Invisible
  | Hidden
  | Split
  | Culled
deriving DecidableEq, Repr

/-- `Winding` from `src/primitive.rs`. -/
inductive Winding where
  | Clockwise
  | CounterClockwise
  | Degenerate
deriving DecidableEq, Repr

/-- `Tri` from `src/primitive.rs`: three homogeneous points and three
edge tags; edge `i` runs from vertex `i` to vertex `(i + 1) % 3`. -/
structure Tri where
  p : Fin 3 → Vec4
  e : Fin 3 → EdgeType
deriving DecidableEq

/-- `Tri::hide`: mark every edge `Hidden` (modelled functionally; the
source mutates in place). -/
def Tri.hide (t : Tri) : Tri := ⟨t.p, fun _ => .Hidden⟩

/-- `Tri::is_hidden`: true iff all edges are `Hidden`. -/
def Tri.is_hidden (t : Tri) : Bool := decide (∀ i, t.e i = .Hidden)

/-- `Tri::winding_2d`.  The source compares the unscaled signed area
against `EPS * p01.norm() * p12.norm()`; since that threshold is
nonnegative, `area > thr` iff `0 < area ∧ thr² < area²` and
`area < -thr` iff `area < 0 ∧ thr² < area²`, which is how the
comparison is encoded here over `ℚ`. -/
def Tri.winding_2d (t : Tri) : Winding :=
  let p01 := (t.p 1).xy - (t.p 0).xy
  let p12 := (t.p 2).xy - (t.p 1).xy
  let area := cross2 p01 p12
  let thrSq := EPS * EPS * (normSq p01 * normSq p12)
  if 0 < area ∧ thrSq < area * area then .CounterClockwise
  else if area < 0 ∧ thrSq < area * area then .Clockwise
  else .Degenerate

/-- `Tri::reverse`: swap vertices 1 and 2 and edge tags 0 and 2. -/
def Tri.reverse (t : Tri) : Tri :=
  ⟨fun i => if i = 1 then t.p 2 else if i = 2 then t.p 1 else t.p 0,
   fun i => if i = 0 then t.e 2 else if i = 2 then t.e 0 else t.e i⟩

/-- `Primitive` from `src/primitive.rs`. -/
inductive Primitive where
  | point (point : Vec4)
  | line (p0 p1 : Vec4)
  | tri (tri : Tri)
deriving DecidableEq

/-- `Primitive::centroid`. -/
def Primitive.centroid (pr : Primitive) : Vec3 :=
  match pr with
  | .point p => ⟨p.x, p.y, p.z⟩
  | .line p0 p1 => ⟨(p0.x + p1.x) / 2, (p0.y + p1.y) / 2, (p0.z + p1.z) / 2⟩
  | .tri t =>
      ⟨(((t.p 0).x + (t.p 1).x) + (t.p 2).x) / 3,
       (((t.p 0).y + (t.p 1).y) + (t.p 2).y) / 3,
       (((t.p 0).z + (t.p 1).z) + (t.p 2).z) / 3⟩

/-- `Primitive::is_hidden`: only a triangle with all edges `Hidden`
counts as hidden. -/
def Primitive.is_hidden (pr : Primitive) : Bool :=
  match pr with
  | .tri t => t.is_hidden
  | _ => false

/-- `Primitive::hide`: hide a triangle, leave points and lines alone. -/
def Primitive.hide (pr : Primitive) : Primitive :=
  match pr with
  | .tri t => .tri t.hide
  | _ => pr

/-- `ZsortPrim` from `src/primitive.rs`: a primitive with its priority
key `z = -centroid().z` and the memo set `presplit` of
`(rendered-index, edge)` pairs already tested.  The source's `HashSet`
is modelled as a list; elements are prepended on insertion. -/
structure ZsortPrim where
  p : Primitive
  z : ℚ
  presplit : List (ℕ × Fin 3)
deriving DecidableEq

/-- `ZsortPrim::new` (and the `From<Primitive>` impl, with an empty
memo set): the key is the negated centroid `z`. -/
def ZsortPrim.new (p : Primitive) (hs : List (ℕ × Fin 3)) : ZsortPrim :=
  ⟨p, -(p.centroid.z), hs⟩

/-- `ZsortPrim::already_checked`. -/
def ZsortPrim.already_checked (zp : ZsortPrim) (izp : ℕ) (i : Fin 3) : Bool :=
  decide ((izp, i) ∈ zp.presplit)

/-! ## Geometric predicates (`src/intersect.rs`) -/

/-- `RayInt` from `src/intersect.rs`. -/
inductive RayInt where
  | Colinear
  | Parallel
  | Intersection (t1 t2 : ℚ)
deriving DecidableEq, Repr

/-- `inside_line_range`: `t` lies within the closed, epsilon-shrunk
unit interval `[EPS, 1 - EPS]`. -/
def inside_line_range (t : ℚ) : Bool := decide (EPS ≤ t ∧ t ≤ 1 - EPS)

/-- `on_line_range`: `t` is strictly within `EPS` of `0` or of `1`. -/
def on_line_range (t : ℚ) : Bool := decide (|t| < EPS ∨ |1 - t| < EPS)

/-- `RayInt::is_line_line_isect`: a genuine segment/segment crossing. -/
def RayInt.is_line_line_isect (r : RayInt) : Bool :=
  match r with
  | .Intersection a b => inside_line_range a && inside_line_range b
  | _ => false

/-- `RayInt::t2`. -/
def RayInt.t2 (r : RayInt) : Option ℚ :=
  match r with
  | .Intersection _ b => some b
  | _ => none

/-- `is_degen_tri`.  The source tests `l01 <= LINE_LENGTH_EPS`,
`l12 <= LINE_LENGTH_EPS` and `|area| <= EPS * (l01 * l12)` with
`l01`, `l12` Euclidean norms; all three comparisons have both sides
nonnegative, so they are encoded by squaring both sides. -/
def is_degen_tri (p0 p1 p2 : Vec2) : Bool :=
  let p01 := p1 - p0
  let p12 := p2 - p1
  let l01Sq := normSq p01
  let l12Sq := normSq p12
  if l01Sq ≤ LINE_LENGTH_EPS * LINE_LENGTH_EPS ∨
     l12Sq ≤ LINE_LENGTH_EPS * LINE_LENGTH_EPS then true
  else
    let sa := cross2 p01 p12
    decide (sa * sa ≤ EPS * EPS * (l01Sq * l12Sq))

/-- `PointTriTest` from `src/intersect.rs`.  The edge index in `On` is
a `usize` in the source but only ever takes the values 0, 1, 2. -/
inductive PointTriTest where
  | Inside (v : Vec3)
  | On (i : Fin 3)
  | Outside
deriving DecidableEq, Repr

/-- Determinant of the barycentric system's matrix
`[[x0, x1, x2], [y0, y1, y2], [1, 1, 1]]` built by `barycentric_coords`. -/
def baryDet (t : Tri) : ℚ :=
  let x0 := (t.p 0).x; let x1 := (t.p 1).x; let x2 := (t.p 2).x
  let y0 := (t.p 0).y; let y1 := (t.p 1).y; let y2 := (t.p 2).y
  x0 * (y1 - y2) - x1 * (y0 - y2) + x2 * (y0 - y1)

/-- `barycentric_coords`: solve
`[[x0, x1, x2], [y0, y1, y2], [1, 1, 1]] · v = (p.x, p.y, 1)`.
The source's LU solve returns `None` exactly when the matrix is
singular; over `ℚ` this is `baryDet t = 0`, and otherwise the unique
solution is given by Cramer's rule. -/
def barycentric_coords (p : Vec2) (t : Tri) : Option Vec3 :=
  let x0 := (t.p 0).x; let x1 := (t.p 1).x; let x2 := (t.p 2).x
  let y0 := (t.p 0).y; let y1 := (t.p 1).y; let y2 := (t.p 2).y
  let d := baryDet t
  if d = 0 then none
  else
    some ⟨(p.x * (y1 - y2) - x1 * (p.y - y2) + x2 * (p.y - y1)) / d,
          (x0 * (p.y - y2) - p.x * (y0 - y2) + x2 * (y0 - p.y)) / d,
          (x0 * (y1 - p.y) - x1 * (y0 - p.y) + p.x * (y0 - y1)) / d⟩

/-- The classification cascade applied to solved barycentric weights
inside `point_tri_comparison_test` (the body of its `if let Some(v)`
branch). -/
def classifyBary (v : Vec3) : PointTriTest :=
  if inside_line_range v.x ∧ inside_line_range v.y ∧ inside_line_range v.z then
    .Inside v
  else if v.x < -EPS ∨ v.y < -EPS ∨ v.z < -EPS then
    .Outside
  else if on_line_range v.x then .On 1
  else if on_line_range v.y then .On 2
  else if on_line_range v.z then .On 0
  else .Outside

/-- `point_tri_comparison_test`: classify the barycentric weights, or
`Outside` when the system is singular. -/
def point_tri_comparison_test (p : Vec2) (t : Tri) : PointTriTest :=
  match barycentric_coords p t with
  | some v => classifyBary v
  | none => .Outside

/-- `implicit_ray_intersect_2d`.  The source checks the two degeneracy
cases first, then inverts `[[da.x, -db.x], [da.y, -db.y]]`;
`try_inverse` fails iff the determinant vanishes. -/
def implicit_ray_intersect_2d (a0 a1 b0 b1 : Vec2) : RayInt :=
  let da := a1 - a0
  let db := b1 - b0
  if is_degen_tri a0 a1 b0 ∧ is_degen_tri a0 a1 b1 then .Colinear
  else if is_degen_tri ⟨0, 0⟩ da db then .Parallel
  else
    let det := da.x * (-db.y) - (-db.x) * da.y
    if det = 0 then .Parallel
    else
      let rx := b0.x - a0.x
      let ry := b0.y - a0.y
      .Intersection ((-db.y * rx + db.x * ry) / det)
        ((-da.y * rx + da.x * ry) / det)

/-- `triangle_in_triangle_2d`: every vertex of `t1` is `Inside` or `On`
with respect to `t2`. -/
def triangle_in_triangle_2d (t1 t2 : Tri) : Bool :=
  (List.finRange 3).all (fun i =>
    match point_tri_comparison_test ((t1.p i).xy) t2 with
    | .Inside _ => true
    | .On _ => true
    | .Outside => false)

/-- `SplitResult` from `src/intersect.rs` (the `Original` variant's
borrowed triangle payload is dropped). -/
inductive SplitResult where
  | Original
  | Split (tris : List Tri)
  | Degen
deriving DecidableEq

/-- `perspective_lerp`: interpolate the dehomogenized coordinates
linearly and recombine the `w` components harmonically. -/
def perspective_lerp (t : ℚ) (p0 p1 : Vec4) : Vec4 :=
  ⟨(1 - t) * p0.x + t * p1.x,
   (1 - t) * p0.y + t * p1.y,
   (1 - t) * p0.z + t * p1.z,
   p0.w * p1.w / ((1 - t) * p1.w + t * p0.w)⟩

/-- `split_triangle_aux`: split `tri` along the cut found on edge `e`,
producing 3 sub-triangles when edge `e+1` or `e+2` also crosses in
range and 2 sub-triangles when the cut exits through the opposite
vertex.  The source panics when `isects[e]` carries no `t2`; that is
modelled by `none`. -/
def split_triangle_aux (tri : Tri) (e : Fin 3) (isects : Fin 3 → RayInt) :
    Option (List Tri) :=
  let e1 : Fin 3 := e + 1
  let e2 : Fin 3 := e + 2
  match (isects e).t2 with
  | none => none
  | some t2 =>
    let p := perspective_lerp t2 (tri.p e) (tri.p e1)
    match (isects e1).t2 with
    | some u2 =>
      if inside_line_range u2 then
        let q := perspective_lerp u2 (tri.p e1) (tri.p e2)
        some [⟨![p, tri.p e1, q], ![tri.e e, tri.e e1, .Split]⟩,
              ⟨![p, q, tri.p e2], ![.Split, tri.e e1, .Split]⟩,
              ⟨![p, tri.p e2, tri.p e], ![.Split, tri.e e2, tri.e e]⟩]
      else
        match (isects e2).t2 with
        | some v2 =>
          if inside_line_range v2 then
            let q := perspective_lerp v2 (tri.p e2) (tri.p e)
            some [⟨![p, tri.p e1, tri.p e2], ![tri.e e, tri.e e1, .Split]⟩,
                  ⟨![p, tri.p e2, q], ![.Split, tri.e e2, .Split]⟩,
                  ⟨![p, q, tri.p e], ![.Split, tri.e e2, tri.e e]⟩]
          else
            some [⟨![p, tri.p e1, tri.p e2], ![tri.e e, tri.e e1, .Split]⟩,
                  ⟨![p, tri.p e2, tri.p e], ![.Split, tri.e e2, tri.e e]⟩]
        | none =>
            some [⟨![p, tri.p e1, tri.p e2], ![tri.e e, tri.e e1, .Split]⟩,
                  ⟨![p, tri.p e2, tri.p e], ![.Split, tri.e e2, tri.e e]⟩]
    | none =>
        match (isects e2).t2 with
        | some v2 =>
          if inside_line_range v2 then
            let q := perspective_lerp v2 (tri.p e2) (tri.p e)
            some [⟨![p, tri.p e1, tri.p e2], ![tri.e e, tri.e e1, .Split]⟩,
                  ⟨![p, tri.p e2, q], ![.Split, tri.e e2, .Split]⟩,
                  ⟨![p, q, tri.p e], ![.Split, tri.e e2, tri.e e]⟩]
          else
            some [⟨![p, tri.p e1, tri.p e2], ![tri.e e, tri.e e1, .Split]⟩,
                  ⟨![p, tri.p e2, tri.p e], ![.Split, tri.e e2, tri.e e]⟩]
        | none =>
            some [⟨![p, tri.p e1, tri.p e2], ![tri.e e, tri.e e1, .Split]⟩,
                  ⟨![p, tri.p e2, tri.p e], ![.Split, tri.e e2, tri.e e]⟩]

/-- The three per-edge ray intersections computed at the top of
`split_triangle_by_segment`: segment `p0 → p1` against edge
`(i, i + 1)` of the triangle. -/
def edgeIsects (tri : Tri) (p0 p1 : Vec2) : Fin 3 → RayInt := fun i =>
  implicit_ray_intersect_2d p0 p1 ((tri.p i).xy) ((tri.p (i + 1)).xy)

/-- One comparison step of Rust's `min_by` on first parameters:
a later candidate replaces the current best only when strictly
smaller (`min_by` keeps the earliest of equal minima). -/
def minPosStep (acc : Option (Fin 3 × ℚ × ℚ)) (c : Fin 3 × ℚ × ℚ) :
    Option (Fin 3 × ℚ × ℚ) :=
  match acc with
  | none => some c
  | some b => if c.2.1 < b.2.1 then some c else some b

/-- The candidate list of the `min_by` selection: the edge intersections
with a strictly positive first parameter, in edge order. -/
def minPosCands (isects : Fin 3 → RayInt) : List (Fin 3 × ℚ × ℚ) :=
  (List.finRange 3).filterMap (fun i =>
    match isects i with
    | .Intersection t1 t2 => if 0 < t1 then some (i, t1, t2) else none
    | _ => none)

/-- The `min_by` selection in the both-`Inside` case of
`split_triangle_by_segment`: among the edge intersections with a
strictly positive first parameter, the first one attaining the minimal
first parameter. -/
def minPosIsect (isects : Fin 3 → RayInt) : Option (Fin 3 × ℚ × ℚ) :=
  (minPosCands isects).foldl minPosStep none

/-- The first edge index (in order 0, 1, 2) whose intersection is a
genuine segment/segment crossing, as scanned by the `for` loop at the
top of `split_triangle_by_segment`. -/
def firstLineLine (isects : Fin 3 → RayInt) : Option (Fin 3) :=
  (List.finRange 3).find? (fun i => (isects i).is_line_line_isect)

/-- The colinearity test `i0 == Colinear || i1 == Colinear || i2 == Colinear`
from `split_triangle_by_segment`. -/
def hasColinearEdge (isects : Fin 3 → RayInt) : Bool :=
  decide (isects 0 = .Colinear) || decide (isects 1 = .Colinear) ||
    decide (isects 2 = .Colinear)

/-- The case analysis of `split_triangle_by_segment`, applied to the
already-computed per-edge intersections, first genuine crossing,
colinearity flag, and the two endpoint classifications (the source
likewise computes `e0` and `e1` before matching on them). -/
def splitCases (tri : Tri) (isects : Fin 3 → RayInt) (fll : Option (Fin 3))
    (colin : Bool) (c0 c1 : PointTriTest) : Option SplitResult :=
  match fll with
  | some i => (split_triangle_aux tri i isects).map .Split
  | none =>
    if colin then
      some .Original
    else
      match c0, c1 with
      | .Outside, .Outside => some .Original
      | .Inside _, .Inside _ =>
          match minPosIsect isects with
          | some c => (split_triangle_aux tri c.1 isects).map .Split
          | none => none
      | .On e, .Inside _ => (split_triangle_aux tri e isects).map .Split
      | .On e, .On e1 =>
          if e = e1 then some .Original
          else
            match isects e with
            | .Intersection _ _ => (split_triangle_aux tri e isects).map .Split
            | _ => (split_triangle_aux tri e1 isects).map .Split
      | .Inside _, .On e => (split_triangle_aux tri e isects).map .Split
      | .Outside, .On _ => some .Original
      | .On _, .Outside => some .Original
      | _, _ =>
          if is_degen_tri ((tri.p 0).xy) ((tri.p 1).xy) ((tri.p 2).xy) then
            some .Degen
          else none

/-- `split_triangle_by_segment`.  `none` models the two panics (the
`expect` in the both-`Inside` case and the exhaustive-case `panic!`),
as well as a panic propagated from `split_triangle_aux`. -/
def split_triangle_by_segment (tri : Tri) (p0 p1 : Vec2) : Option SplitResult :=
  let isects := edgeIsects tri p0 p1
  splitCases tri isects (firstLineLine isects) (hasColinearEdge isects)
    (point_tri_comparison_test p0 tri) (point_tri_comparison_test p1 tri)

/-! ## Renderer (`src/renderer.rs`) and output flattening
(`src/render_paths.rs`) -/

/-- `Renderer::add_polygon`, acting on the accumulated
`input_primitives` list.  The source iterates `for i in 0..p.len() - 2`
with `p.len()` a `usize`: for an input of fewer than 2 points the
subtraction `p.len() - 2` underflows, which panics in a debug build and
wraps around (leading to an out-of-bounds index panic on `p[0]` or
`p[1]`) in a release build; both readings are modelled by `none`. -/
def add_polygon (input : List Primitive) (p : List Vec3) :
    Option (List Primitive) :=
  if p.length < 2 then none
  else
    some (input ++ (List.range (p.length - 2)).map (fun i =>
      let e0 : EdgeType := if i = 0 then .Visible else .Invisible
      let e2 : EdgeType := if i = p.length - 3 then .Visible else .Invisible
      let at_ : ℕ → Vec4 := fun j =>
        let q := p.getD j ⟨0, 0, 0⟩
        ⟨q.x, q.y, q.z, 1⟩
      .tri ⟨![at_ 0, at_ (i + 1), at_ (i + 2)], ![e0, .Visible, e2]⟩))

/-- A 4×4 clip matrix of rationals. -/
def Mat4 : Type := Fin 4 → Fin 4 → ℚ

/-- Matrix–vector product `clip * p` (row-major rows dotted with
`(x, y, z, w)`), as performed inside `Renderer::proj`. -/
def matApply (c : Mat4) (p : Vec4) : Vec4 :=
  let row := fun i : Fin 4 => c i 0 * p.x + c i 1 * p.y + c i 2 * p.z + c i 3 * p.w
  ⟨row 0, row 1, row 2, row 3⟩

/-- `Renderer::proj`: apply the clip transform, then perspective-divide
and keep `w`. -/
def proj (c : Mat4) (p : Vec4) : Vec4 :=
  let r := matApply c p
  ⟨r.x / r.w, r.y / r.w, r.z / r.w, r.w⟩

/-- `Renderer::proj_prim`. -/
def proj_prim (c : Mat4) (pr : Primitive) : Primitive :=
  match pr with
  | .point p => .point (proj c p)
  | .line p0 p1 => .line (proj c p0) (proj c p1)
  | .tri t => .tri ⟨fun i => proj c (t.p i), t.e⟩

/-- `Renderer::points_culled`: all points on the wrong side of one of
the 6 frustum planes. -/
def points_culled (depth_range : ℚ × ℚ) (pts : List Vec4) : Bool :=
  pts.all (fun v => v.x < -1) || pts.all (fun v => v.x > 1) ||
  pts.all (fun v => v.y < -1) || pts.all (fun v => v.y > 1) ||
  pts.all (fun v => v.z < depth_range.1) || pts.all (fun v => v.z > depth_range.2)

/-- `Renderer::is_prim_culled`. -/
def is_prim_culled (depth_range : ℚ × ℚ) (pr : Primitive) : Bool :=
  match pr with
  | .point p => points_culled depth_range [p]
  | .line p0 p1 => points_culled depth_range [p0, p1]
  | .tri t => points_culled depth_range [t.p 0, t.p 1, t.p 2]

/-- The winding `filter_map` in `Renderer::render`, lines 159–173 of
`src/renderer.rs`.  In the `Clockwise` arm the source executes
`tri.reverse();` — `Tri::reverse` takes `self` by value, so the reversed
triangle is built and *discarded*, and the (moved-from) `tri` is then
pushed; as written this is a use of a moved value, and its executable
reading, modelled here, passes the clockwise triangle through
unreversed.  `Degenerate` triangles are dropped. -/
def windingFilter (pr : Primitive) : Option Primitive :=
  match pr with
  | .tri t =>
      match t.winding_2d with
      | .Clockwise => some (.tri t)
      | .Degenerate => none
      | .CounterClockwise => some (.tri t)
  | _ => some pr

/-- Pop the element with the largest key `z` (the nearest primitive,
since `z = -centroid.z`), returning it and the remaining list.  Models
popping Rust's `BinaryHeap<ZsortPrim>` max-element; among equal keys
the element closest to the front is taken (the heap's choice among ties
is unspecified). -/
def popMax : List ZsortPrim → Option (ZsortPrim × List ZsortPrim)
  | [] => none
  | x :: xs =>
    match popMax xs with
    | none => some (x, [])
    | some (m, rest) => if x.z < m.z then some (m, x :: rest) else some (x, xs)

/-- Result of scanning the `rendered_prims` list for the popped
triangle: either a split was found (children to push), or the scan
finished, recording whether the triangle was found fully contained in
an accepted triangle. -/
inductive ScanRes where
  | splitPush (children : List ZsortPrim)
  | finish (hidden : Bool)
deriving DecidableEq

/-- One edge test of the inner `for i in 0..3` loop of
`Renderer::render`: skip a memoized pair, otherwise attempt the split
of `tri` by edge `i` of accepted triangle `test_tri` (index `izp`).
The nested option distinguishes a panic (`none`), no split yet
(`some none`), and a successful split (`some (some _)`). -/
def tryEdgeBody (tri : Tri) (x : ZsortPrim) (izp : ℕ) (test_tri : Tri)
    (i : Fin 3) : Option (Option (Fin 3 × List Tri)) :=
  if x.already_checked izp i then some none
  else
    let pa := (test_tri.p i).xy
    let pb := (test_tri.p (i + 1)).xy
    match split_triangle_by_segment tri pa pb with
    | none => none
    | some (.Split tris) => some (some (i, tris))
    | some _ => some none

/-- Short-circuiting accumulation of the edge tests: a panic or a found
split stops further testing. -/
def tryEdgeStep (tri : Tri) (x : ZsortPrim) (izp : ℕ) (test_tri : Tri)
    (acc : Option (Option (Fin 3 × List Tri))) (i : Fin 3) :
    Option (Option (Fin 3 × List Tri)) :=
  match acc with
  | none => none
  | some (some r) => some (some r)
  | some none => tryEdgeBody tri x izp test_tri i

/-- Scan the three edges of accepted triangle `test_tri` (index `izp`)
in order, skipping memoized pairs, and return the first successful
split, as in the inner `for i in 0..3` loop of `Renderer::render`.
`none` models a panic from `split_triangle_by_segment`. -/
def tryEdges (tri : Tri) (x : ZsortPrim) (izp : ℕ) (test_tri : Tri) :
    Option (Option (Fin 3 × List Tri)) :=
  (List.finRange 3).foldl (tryEdgeStep tri x izp test_tri) (some none)

/-- The loop over `rendered_prims` in `Renderer::render`: try to split
the popped triangle against each accepted, non-hidden triangle's edges;
if a split succeeds, push the children (with the memo pair recorded);
otherwise test full 2D containment, which hides the triangle and stops
the scan.  `none` models a propagated panic. -/
def scan (tri : Tri) (x : ZsortPrim) : List ZsortPrim → ℕ → Option ScanRes
  | [], _ => some (.finish false)
  | zp :: rest, izp =>
    match zp.p with
    | .tri test_tri =>
      if test_tri.is_hidden then scan tri x rest (izp + 1)
      else
        match tryEdges tri x izp test_tri with
        | none => none
        | some (some (i, tris)) =>
            let new_hs := (izp, i) :: x.presplit
            some (.splitPush (tris.map (fun t => ZsortPrim.new (.tri t) new_hs)))
        | some none =>
            if triangle_in_triangle_2d tri test_tri then some (.finish true)
            else scan tri x rest (izp + 1)
    | _ => scan tri x rest (izp + 1)

/-- One iteration of the `'prim_loop` in `Renderer::render`. -/
inductive StepRes where
  | done
  | panic
  | next (rendered heap : List ZsortPrim)

/-- Processing of one popped entry `x` (with `heap'` the rest of the
queue): points and lines are accepted unconditionally; a degenerate
triangle is dropped; otherwise the accepted list is scanned, and the
triangle is either split (children pushed) or accepted, hidden first
when it was found contained. -/
def stepPopped (rendered heap' : List ZsortPrim) (x : ZsortPrim) : StepRes :=
  match x.p with
  | .point _ => .next (rendered ++ [x]) heap'
  | .line _ _ => .next (rendered ++ [x]) heap'
  | .tri t =>
    if t.winding_2d = .Degenerate then .next rendered heap'
    else
      match scan t x rendered 0 with
      | none => .panic
      | some (.splitPush children) => .next rendered (heap' ++ children)
      | some (.finish hidden) =>
          .next (rendered ++ [if hidden then { x with p := x.p.hide } else x]) heap'

/-- One iteration of the work-queue loop: pop the nearest primitive and
process it. -/
def renderStep (rendered heap : List ZsortPrim) : StepRes :=
  match popMax heap with
  | none => .done
  | some (x, heap') => stepPopped rendered heap' x

/-- The work-queue loop, fuel-bounded.  `none` models a panic; when the
fuel runs out the state reached so far is returned (every claim proved
below about the loop is fuel-independent or evaluates a run that
completes within its fuel). -/
def renderLoop : ℕ → List ZsortPrim → List ZsortPrim →
    Option (List ZsortPrim × List ZsortPrim)
  | 0, rendered, heap => some (rendered, heap)
  | fuel + 1, rendered, heap =>
    match renderStep rendered heap with
    | .done => some (rendered, heap)
    | .panic => none
    | .next r h => renderLoop fuel r h

/-- A flattened output line (`RenderLine` from `src/render_paths.rs`). -/
structure RenderLine where
  p0 : Vec2
  p1 : Vec2
  edge : EdgeType
deriving DecidableEq, Repr

/-- Flattened render output (`RenderPaths` from `src/render_paths.rs`). -/
structure RenderPaths where
  points : List Vec2
  lines : List RenderLine
deriving DecidableEq

/-- The lines contributed by one accepted primitive in the
`FromIterator<&ZsortPrim>` impl for `RenderPaths`: a line becomes one
`Visible` `RenderLine`; a triangle contributes its three edges with
their final tags. -/
def primLines (pr : Primitive) : List RenderLine :=
  match pr with
  | .point _ => []
  | .line p0 p1 => [⟨p0.xy, p1.xy, .Visible⟩]
  | .tri t => [⟨(t.p 0).xy, (t.p 1).xy, t.e 0⟩,
               ⟨(t.p 1).xy, (t.p 2).xy, t.e 1⟩,
               ⟨(t.p 2).xy, (t.p 0).xy, t.e 2⟩]

/-- The points contributed by one accepted primitive. -/
def primPoints (pr : Primitive) : List Vec2 :=
  match pr with
  | .point p => [p.xy]
  | _ => []

/-- `FromIterator<&ZsortPrim> for RenderPaths`: the source folds over
the accepted list, appending each primitive's points and lines in
order, which is the same as flattening the per-primitive
contributions. -/
def toRenderPaths (rendered : List ZsortPrim) : RenderPaths :=
  ⟨rendered.flatMap (fun zp => primPoints zp.p),
   rendered.flatMap (fun zp => primLines zp.p)⟩

/-- `Renderer::render`: project, conservatively cull, fix winding,
priority-queue the survivors, run the occlusion loop, and flatten the
accepted list. -/
def render (clip : Mat4) (depth_range : ℚ × ℚ) (input : List Primitive)
    (fuel : ℕ) : Option RenderPaths :=
  let culled := ((input.map (proj_prim clip)).filter
      (fun p => ¬ is_prim_culled depth_range p)).filterMap windingFilter
  let heap := culled.map (fun p => ZsortPrim.new p [])
  (renderLoop fuel [] heap).map (fun s => toRenderPaths s.1)

/-! ## The work-queue memo discipline of `Renderer::render`, abstracted

`AbsState`/`AbsStep` capture exactly the bookkeeping of the
`'prim_loop` in `src/renderer.rs` that claim C3's termination argument
cites: a popped entry is either accepted onto the rendered list
(points, lines, triangles with no split), dropped (degenerate
triangles), or split into 2 or 3 children (the possible lengths of
`split_triangle_aux`'s result) whose memo sets extend the parent's by
one pair `(izp, i)` with `izp` an index into the current rendered list
and `(izp, i)` not yet memoized (the `already_checked` guard).  The
geometry deciding which of the three happens is abstracted into
nondeterminism, as is the heap's choice of which entry to pop. -/

/-- A work-queue entry reduced to its memo set. -/
structure AbsEntry where
  memo : List (ℕ × Fin 3)
deriving DecidableEq

/-- Work-queue state reduced to the queue's memo sets and the length of
the rendered (accepted) list. -/
structure AbsState where
  queue : List AbsEntry
  rendered : ℕ
deriving DecidableEq

/-- One pop of the work-queue loop, keeping only the memo discipline. -/
inductive AbsStep : AbsState → AbsState → Prop
  | accept (l r : List AbsEntry) (x : AbsEntry) (n : ℕ) :
      AbsStep ⟨l ++ x :: r, n⟩ ⟨l ++ r, n + 1⟩
  | drop (l r : List AbsEntry) (x : AbsEntry) (n : ℕ) :
      AbsStep ⟨l ++ x :: r, n⟩ ⟨l ++ r, n⟩
  | split (l r : List AbsEntry) (x : AbsEntry) (n : ℕ)
      (pr : ℕ × Fin 3) (children : List AbsEntry)
      (hidx : pr.1 < n) (hnew : pr ∉ x.memo)
      (hlen : children.length = 2 ∨ children.length = 3)
      (hmemo : ∀ c ∈ children, c.memo = pr :: x.memo) :
      AbsStep ⟨l ++ x :: r, n⟩ ⟨(l ++ r) ++ children, n⟩

/-- An infinite execution of the work-queue discipline. -/
def IsRun (f : ℕ → AbsState) : Prop := ∀ n, AbsStep (f n) (f (n + 1))

/-- The accepted list grows beyond every bound along the execution. -/
def RenderedUnbounded (f : ℕ → AbsState) : Prop :=
  ∀ R, ∃ n, R < (f n).rendered

/-- Every queue entry's memo set is duplicate-free and only references
indices of the current rendered list — the invariant the loop
establishes (memo sets start empty and each split inserts one fresh
pair indexing the rendered list). -/
def ValidState (s : AbsState) : Prop :=
  ∀ x ∈ s.queue, x.memo.Nodup ∧ ∀ pr ∈ x.memo, pr.1 < s.rendered

/-- The memo set `{(0, 0), …, (g - 1, 0)}` (most recent pair first). -/
def memoM (g : ℕ) : List (ℕ × Fin 3) :=
  (List.range g).reverse.map (fun j => (j, 0))

/-- An infinite execution of the memo discipline: from two initial
entries with empty memo sets, alternately accept one entry and split
the other on the pair freed by the previous accept, producing two
children each time. -/
def badRun (n : ℕ) : AbsState :=
  if n % 2 = 0 then ⟨[⟨memoM (n / 2)⟩, ⟨memoM (n / 2)⟩], n / 2⟩
  else ⟨[⟨memoM (n / 2)⟩], n / 2 + 1⟩

/-- Potential of a queue entry: `4 ^ (bound - memo size)`. -/
def entryPot (bound : ℕ) (x : AbsEntry) : ℕ := 4 ^ (bound - x.memo.length)

/-- Potential of a state: the sum of its queue entries' potentials. -/
def statePot (bound : ℕ) (s : AbsState) : ℕ :=
  (s.queue.map (entryPot bound)).sum

/-- The memo-discipline abstraction of a concrete loop state. -/
def absOf (rendered heap : List ZsortPrim) : AbsState :=
  ⟨heap.map (fun z => ⟨z.presplit⟩), rendered.length⟩

/-! ## Concrete inputs used by counterexamples and witnesses -/

/-- A 2D-colinear (degenerate) triangle: its barycentric system is
singular. -/
def colinTri : Tri :=
  ⟨![⟨0, 0, 0, 1⟩, ⟨1, 1, 0, 1⟩, ⟨2, 2, 0, 1⟩], ![.Visible, .Visible, .Visible]⟩

/-- The standard counter-clockwise unit triangle. -/
def unitTri : Tri :=
  ⟨![⟨0, 0, 0, 1⟩, ⟨1, 0, 0, 1⟩, ⟨0, 1, 0, 1⟩], ![.Visible, .Visible, .Visible]⟩

/-- A clockwise triangle (the unit triangle with vertices 1 and 2
exchanged). -/
def cwTri : Tri :=
  ⟨![⟨0, 0, 0, 1⟩, ⟨0, 1, 0, 1⟩, ⟨1, 0, 0, 1⟩], ![.Visible, .Visible, .Visible]⟩

/-- A large triangle with three distinct edge tags, used to exercise
the splitter. -/
def bigTri : Tri :=
  ⟨![⟨0, 0, 0, 1⟩, ⟨10, 0, 0, 1⟩, ⟨0, 10, 0, 1⟩], ![.Visible, .Invisible, .Hidden]⟩

/-- A counter-clockwise triangle whose three edges carry the `Culled`
tag, fed to the renderer through the `add_prim` escape hatch. -/
def culTri : Tri :=
  ⟨![⟨0, 0, 0, 1⟩, ⟨1, 0, 0, 1⟩, ⟨0, 1, 0, 1⟩], ![.Culled, .Culled, .Culled]⟩

/-- An all-edges-`Hidden` triangle wrapped as a queue entry. -/
def hiddenZ : ZsortPrim :=
  ZsortPrim.new (.tri ⟨![⟨0, 0, 0, 1⟩, ⟨1, 0, 0, 1⟩, ⟨0, 1, 0, 1⟩],
    ![.Hidden, .Hidden, .Hidden]⟩) []

/-- The identity clip transform. -/
def idMat : Mat4 := fun i j => if i = j then 1 else 0

/-- `true` iff the primitive carries no `Culled` edge tag. -/
def primNoCulled (pr : Primitive) : Bool :=
  match pr with
  | .tri t => decide (∀ i, t.e i ≠ .Culled)
  | _ => true

/-! ## Theorems -/

/-- C1: in the winding-fixing `filter_map` of `Renderer::render`, a
surviving clockwise triangle is *not* reversed before entering the
priority queue: the source computes `tri.reverse()` (which takes `self`
by value) as a discarded statement and then pushes `tri` itself, so the
concrete clockwise triangle `cwTri` passes through unchanged — still
clockwise, and different from its reversal — contradicting the claim
that its vertex and edge order are swapped and that every queued
triangle is counter-clockwise. -/
theorem C1_clockwise_not_reversed :
    cwTri.winding_2d = .Clockwise ∧
    windingFilter (.tri cwTri) = some (.tri cwTri) ∧
    windingFilter (.tri cwTri) ≠ some (.tri cwTri.reverse) ∧
    (cwTri.reverse).winding_2d = .CounterClockwise := by
  refine ⟨by with_unfolding_all decide, by with_unfolding_all decide, by with_unfolding_all decide, by with_unfolding_all decide⟩

/-- C2 (counterexample): at `p = (-EPS, -EPS)` against the unit
triangle the barycentric weights are `(1 + 2·EPS, -EPS, -EPS)`: the
system is solvable, no weight is below `-EPS` and not all weights are
in the shrunk unit range, so the claim's trichotomy demands `On(edge)`;
but no weight is strictly within `EPS` of `0` or `1`, and the code's
final `else` branch answers `Outside`. -/
theorem C2_counterexample :
    point_tri_comparison_test ⟨-EPS, -EPS⟩ unitTri = .Outside ∧
    (barycentric_coords ⟨-EPS, -EPS⟩ unitTri).isSome = true ∧
    ((barycentric_coords ⟨-EPS, -EPS⟩ unitTri).all fun v =>
      !(decide (v.x < -EPS) || decide (v.y < -EPS) || decide (v.z < -EPS)) &&
      !(inside_line_range v.x && inside_line_range v.y && inside_line_range v.z) &&
      !(on_line_range v.x || on_line_range v.y || on_line_range v.z)) = true := by
  refine ⟨by with_unfolding_all decide, by with_unfolding_all decide,
    by with_unfolding_all decide⟩

/-- C2 (amended): the full classification of `point_tri_comparison_test`:
`Inside` exactly when all three weights lie in the epsilon-shrunk unit
range; `Outside` whenever some weight is below `-EPS`; `On` with the
fixed mapping (weight 0 ↦ edge 1, weight 1 ↦ edge 2, weight 2 ↦ edge 0,
in that priority order) when some weight is within `EPS` of `0` or `1`;
`Outside` in the remaining case where no weight is within `EPS` of `0`
or `1`; and `Outside` when the barycentric system is singular. -/
theorem C2_point_classification (p : Vec2) (t : Tri) :
    (∀ v, barycentric_coords p t = some v →
      point_tri_comparison_test p t = classifyBary v ∧
      (classifyBary v = .Inside v ↔
        (inside_line_range v.x ∧ inside_line_range v.y ∧ inside_line_range v.z)) ∧
      ((v.x < -EPS ∨ v.y < -EPS ∨ v.z < -EPS) → classifyBary v = .Outside) ∧
      (¬ (inside_line_range v.x ∧ inside_line_range v.y ∧ inside_line_range v.z) →
        ¬ (v.x < -EPS ∨ v.y < -EPS ∨ v.z < -EPS) →
        (on_line_range v.x → classifyBary v = .On 1) ∧
        (¬ on_line_range v.x → on_line_range v.y → classifyBary v = .On 2) ∧
        (¬ on_line_range v.x → ¬ on_line_range v.y → on_line_range v.z →
          classifyBary v = .On 0) ∧
        (¬ on_line_range v.x → ¬ on_line_range v.y → ¬ on_line_range v.z →
          classifyBary v = .Outside))) ∧
    (barycentric_coords p t = none → point_tri_comparison_test p t = .Outside) := by
  constructor
  · intro v hv
    refine ⟨by simp [point_tri_comparison_test, hv], ?_, ?_, ?_⟩
    · constructor
      · intro h
        unfold classifyBary at h
        split_ifs at h with h1 h2 h3 h4 h5
        · exact h1
      · intro h
        unfold classifyBary
        rw [if_pos h]
    · intro h
      have hni : ¬ (inside_line_range v.x ∧ inside_line_range v.y ∧
          inside_line_range v.z) := by
        rcases h with h | h | h <;>
          · intro hc
            have hEPS : -EPS < EPS := by norm_num [EPS]
            obtain ⟨c1, c2, c3⟩ := hc
            simp only [inside_line_range, decide_eq_true_eq] at c1 c2 c3
            linarith [c1.1, c2.1, c3.1]
      unfold classifyBary
      rw [if_neg hni, if_pos h]
    · intro hni hno
      unfold classifyBary
      rw [if_neg hni, if_neg hno]
      refine ⟨fun hx => by rw [if_pos hx], fun hx hy => ?_, fun hx hy hz => ?_,
        fun hx hy hz => ?_⟩
      · rw [if_neg hx, if_pos hy]
      · rw [if_neg hx, if_neg hy, if_pos hz]
      · rw [if_neg hx, if_neg hy, if_neg hz]
  · intro h
    simp [point_tri_comparison_test, h]

/-- C2 witness: classifying the unit triangle's first vertex (weights
`(1, 0, 0)`) through `C2_point_classification` yields `On 1`. -/
theorem C2_witness : point_tri_comparison_test ⟨0, 0⟩ unitTri = .On 1 := by
  have h := (C2_point_classification ⟨0, 0⟩ unitTri).1 ⟨1, 0, 0⟩
    (by with_unfolding_all decide)
  have hc := (h.2.2.2 (by with_unfolding_all decide) (by with_unfolding_all decide)).1
    (by with_unfolding_all decide)
  exact h.1.trans hc

/-- C6: `perspective_lerp` interpolates the dehomogenized coordinates
linearly in `t` and recombines `w` harmonically as
`w0·w1 / ((1-t)·w1 + t·w0)`; consequently, for genuine homogeneous
points (nonzero `w`), the result at `t = 0` keeps `p0`'s `w` and at
`t = 1` keeps `p1`'s `w`. -/
theorem C6_perspective_lerp (t : ℚ) (p0 p1 : Vec4)
    (h0 : p0.w ≠ 0) (h1 : p1.w ≠ 0) :
    perspective_lerp t p0 p1 =
      ⟨(1 - t) * p0.x + t * p1.x,
       (1 - t) * p0.y + t * p1.y,
       (1 - t) * p0.z + t * p1.z,
       p0.w * p1.w / ((1 - t) * p1.w + t * p0.w)⟩ ∧
    (perspective_lerp 0 p0 p1).w = p0.w ∧
    (perspective_lerp 1 p0 p1).w = p1.w := by
  refine ⟨rfl, ?_, ?_⟩
  · show p0.w * p1.w / ((1 - 0) * p1.w + 0 * p0.w) = p0.w
    field_simp
  · show p0.w * p1.w / ((1 - 1) * p1.w + 1 * p0.w) = p1.w
    field_simp

/-- C6 witness: a concrete application of `C6_perspective_lerp`. -/
theorem C6_witness :
    (perspective_lerp 0 ⟨0, 0, 0, (1:ℚ)⟩ ⟨2, 2, 2, 2⟩).w = 1 ∧
    (perspective_lerp 1 ⟨0, 0, 0, (1:ℚ)⟩ ⟨2, 2, 2, 2⟩).w = 2 := by
  have h0 := C6_perspective_lerp 0 ⟨0, 0, 0, 1⟩ ⟨2, 2, 2, 2⟩
    (by show (1:ℚ) ≠ 0; norm_num) (by show (2:ℚ) ≠ 0; norm_num)
  have h1 := C6_perspective_lerp 1 ⟨0, 0, 0, 1⟩ ⟨2, 2, 2, 2⟩
    (by show (1:ℚ) ≠ 0; norm_num) (by show (2:ℚ) ≠ 0; norm_num)
  exact ⟨h0.2.1, h1.2.2⟩

/-- C7: `add_polygon` with 0 or 1 points panics (the `usize`
subtraction `p.len() - 2` underflows) instead of leaving the renderer's
input list unchanged; with exactly 2 points it is a silent no-op. -/
theorem C7_add_polygon_underflow :
    add_polygon [] [] = none ∧
    add_polygon [] [⟨0, 0, 0⟩] = none ∧
    add_polygon [] [⟨0, 0, 0⟩, ⟨1, 0, 0⟩] = some [] := by
  refine ⟨rfl, rfl, by with_unfolding_all decide⟩

/-- Helper: one loop iteration only ever extends the rendered list at
its end (accepted entries are appended; existing entries are never
modified or removed). -/
theorem renderStep_next_rendered (r h r' h' : List ZsortPrim)
    (hs : renderStep r h = .next r' h') : ∃ tail, r' = r ++ tail := by
  unfold renderStep at hs
  rcases hp : popMax h with _ | ⟨x, heap'⟩ <;> simp only [hp] at hs
  · exact StepRes.noConfusion hs
  · unfold stepPopped at hs
    rcases hxp : x.p with p | ⟨a, b⟩ | t <;> simp only [hxp] at hs
    · obtain ⟨rfl, rfl⟩ := StepRes.next.inj hs
      exact ⟨[x], rfl⟩
    · obtain ⟨rfl, rfl⟩ := StepRes.next.inj hs
      exact ⟨[x], rfl⟩
    · by_cases hw : t.winding_2d = .Degenerate
      · rw [if_pos hw] at hs
        obtain ⟨rfl, rfl⟩ := StepRes.next.inj hs
        exact ⟨[], by simp⟩
      · rw [if_neg hw] at hs
        rcases hsc : scan t x r 0 with _ | ⟨children⟩ | hid <;> simp only [hsc] at hs
        · exact StepRes.noConfusion hs
        · obtain ⟨rfl, rfl⟩ := StepRes.next.inj hs
          exact ⟨[], by simp⟩
        · obtain ⟨rfl, rfl⟩ := StepRes.next.inj hs
          exact ⟨_, rfl⟩

/-- Helper: across any number of loop iterations, the rendered list at
the start is a prefix of the final rendered list. -/
theorem renderLoop_rendered_extend (fuel : ℕ) :
    ∀ (r h : List ZsortPrim) (s' : List ZsortPrim × List ZsortPrim),
      renderLoop fuel r h = some s' → ∃ tail, s'.1 = r ++ tail := by
  induction fuel with
  | zero =>
    intro r h s' hr
    rw [renderLoop] at hr
    obtain rfl := Option.some_injective _ hr
    exact ⟨[], by simp⟩
  | succ n ih =>
    intro r h s' hr
    rw [renderLoop] at hr
    rcases hs : renderStep r h with _ | _ | ⟨r2, h2⟩ <;> rw [hs] at hr
    · obtain rfl := Option.some_injective _ hr
      exact ⟨[], by simp⟩
    · exact Option.noConfusion hr
    · obtain ⟨t1, ht1⟩ := renderStep_next_rendered r h r2 h2 hs
      obtain ⟨t2, ht2⟩ := ih r2 h2 s' hr
      exact ⟨t1 ++ t2, by rw [ht2, ht1, List.append_assoc]⟩

/-- C8: once a triangle is in the accepted list with all edges `Hidden`
it stays there unchanged — no later iteration of the occlusion loop
reclassifies any of its (or any accepted) edges — its three flattened
output lines are all tagged `Hidden`, and they appear in the final
flattened output. -/
theorem C8_hidden_stays (fuel : ℕ) (r h : List ZsortPrim)
    (s' : List ZsortPrim × List ZsortPrim)
    (hrun : renderLoop fuel r h = some s') (i : ℕ) (z : ZsortPrim)
    (hz : r[i]? = some z) (hh : z.p.is_hidden = true) :
    s'.1[i]? = some z ∧ (∀ l ∈ primLines z.p, l.edge = .Hidden) ∧
    ∀ l ∈ primLines z.p, l ∈ (toRenderPaths s'.1).lines := by
  obtain ⟨tail, htail⟩ := renderLoop_rendered_extend fuel r h s' hrun
  have hi : i < r.length := by
    by_contra hlt
    rw [List.getElem?_eq_none (le_of_not_lt hlt)] at hz
    exact Option.noConfusion hz
  have hz' : s'.1[i]? = some z := by
    rw [htail, List.getElem?_append_left hi]
    exact hz
  refine ⟨hz', ?_, ?_⟩
  · rcases hzp : z.p with p | ⟨a, b⟩ | t <;> rw [hzp] at hh
    · simp [Primitive.is_hidden] at hh
    · simp [Primitive.is_hidden] at hh
    · simp only [Primitive.is_hidden, Tri.is_hidden, decide_eq_true_eq] at hh
      simp [primLines, hh 0, hh 1, hh 2]
  · intro l hl
    have hzmem : z ∈ s'.1 := by
      rw [htail]
      exact List.mem_append_left _ (List.getElem?_mem hz)
    simp only [toRenderPaths, List.mem_flatMap]
    exact ⟨z, hzmem, hl⟩

/-- C8 witness: a one-iteration run from a state whose accepted list
holds an all-`Hidden` triangle, through `C8_hidden_stays`. -/
theorem C8_witness :
    ([hiddenZ], ([] : List ZsortPrim)).1[0]? = some hiddenZ ∧
    (∀ l ∈ primLines hiddenZ.p, l.edge = .Hidden) ∧
    ∀ l ∈ primLines hiddenZ.p, l ∈ (toRenderPaths [hiddenZ]).lines := by
  have h := C8_hidden_stays 1 [hiddenZ] [] ([hiddenZ], []) rfl 0 hiddenZ rfl
    (by with_unfolding_all decide)
  exact h

/-- Helper: the memo set `{(0,0), …, (g,0)}` grows by prepending. -/
theorem memoM_succ (g : ℕ) : memoM (g + 1) = ((g, (0 : Fin 3))) :: memoM g := by
  simp [memoM, List.range_succ]

/-- Helper: `(g, 0)` is fresh for the memo set `{(0,0), …, (g-1,0)}`. -/
theorem memoM_not_mem (g : ℕ) : ((g, (0 : Fin 3)) : ℕ × Fin 3) ∉ memoM g := by
  simp only [memoM, List.mem_map, List.mem_reverse, List.mem_range, not_exists]
  rintro j ⟨hj, hcon⟩
  obtain ⟨rfl, -⟩ := Prod.mk.inj hcon
  omega

/-- C3 helper: `badRun` is an infinite execution of the work-queue memo
discipline: even steps accept one of the two queued entries, odd steps
split the other on the pair freed by the previous accept. -/
theorem badRun_isRun : IsRun badRun := by
  intro n
  rcases Nat.even_or_odd n with ⟨k, hk⟩ | ⟨k, hk⟩
  · subst hk
    have h1 : (k + k) % 2 = 0 := by omega
    have h2 : (k + k) / 2 = k := by omega
    have h3 : (k + k + 1) % 2 = 1 := by omega
    have h4 : (k + k + 1) / 2 = k := by omega
    simp only [badRun, h1, h2, h3, h4, if_pos, if_neg, Nat.one_ne_zero,
      reduceIte]
    exact AbsStep.accept [] [⟨memoM k⟩] ⟨memoM k⟩ k
  · subst hk
    have h1 : (2 * k + 1) % 2 = 1 := by omega
    have h2 : (2 * k + 1) / 2 = k := by omega
    have h3 : (2 * k + 1 + 1) % 2 = 0 := by omega
    have h4 : (2 * k + 1 + 1) / 2 = k + 1 := by omega
    simp only [badRun, h1, h2, h3, h4, Nat.one_ne_zero, reduceIte]
    have hmemo : ∀ c ∈ ([⟨memoM (k + 1)⟩, ⟨memoM (k + 1)⟩] : List AbsEntry),
        c.memo = (k, (0 : Fin 3)) :: (⟨memoM k⟩ : AbsEntry).memo := by
      intro c hc
      rcases List.mem_cons.mp hc with rfl | hc
      · show memoM (k + 1) = _
        rw [memoM_succ]
      · rcases List.mem_singleton.mp hc with rfl
        show memoM (k + 1) = _
        rw [memoM_succ]
    exact AbsStep.split [] [] ⟨memoM k⟩ (k + 1) (k, 0)
      [⟨memoM (k + 1)⟩, ⟨memoM (k + 1)⟩] (by omega) (memoM_not_mem k)
      (Or.inl rfl) hmemo

/-- C3 helper: along `badRun` the accepted list grows without bound,
beyond the original primitive count (2). -/
theorem badRun_unbounded : RenderedUnbounded badRun := by
  intro R
  refine ⟨2 * (R + 1), ?_⟩
  have h1 : (2 * (R + 1)) % 2 = 0 := by omega
  have h2 : (2 * (R + 1)) / 2 = R + 1 := by omega
  simp only [badRun, h1, h2, reduceIte]
  show R < R + 1
  omega

/-- Helper: a step never shrinks the accepted list. -/
theorem absStep_rendered_mono (s s' : AbsState) (h : AbsStep s s') :
    s.rendered ≤ s'.rendered := by
  cases h <;> simp

/-- Helper: a step preserves validity of the memo sets (duplicate-free,
referencing only accepted indices). -/
theorem absStep_valid (s s' : AbsState) (h : AbsStep s s') (hv : ValidState s) :
    ValidState s' := by
  cases h with
  | accept l r x n =>
    intro y hy
    have hy' : y ∈ l ++ x :: r := by
      rcases List.mem_append.mp hy with h' | h'
      · exact List.mem_append_left _ h'
      · exact List.mem_append_right _ (List.mem_cons_of_mem _ h')
    obtain ⟨hnd, hb⟩ := hv y hy'
    exact ⟨hnd, fun pr hpr => Nat.lt_succ_of_lt (hb pr hpr)⟩
  | drop l r x n =>
    intro y hy
    have hy' : y ∈ l ++ x :: r := by
      rcases List.mem_append.mp hy with h' | h'
      · exact List.mem_append_left _ h'
      · exact List.mem_append_right _ (List.mem_cons_of_mem _ h')
    exact hv y hy'
  | split l r x n pr children hidx hnew hlen hmemo =>
    intro y hy
    have hx : x ∈ l ++ x :: r :=
      List.mem_append_right _ (List.mem_cons_self _ _)
    obtain ⟨hxnd, hxb⟩ := hv x hx
    rcases List.mem_append.mp hy with hy | hy
    · have hy' : y ∈ l ++ x :: r := by
        rcases List.mem_append.mp hy with h' | h'
        · exact List.mem_append_left _ h'
        · exact List.mem_append_right _ (List.mem_cons_of_mem _ h')
      exact hv y hy'
    · have hym := hmemo y hy
      refine ⟨?_, ?_⟩
      · rw [hym]
        exact List.nodup_cons.mpr ⟨hnew, hxnd⟩
      · rw [hym]
        intro q hq
        rcases List.mem_cons.mp hq with rfl | hq
        · exact hidx
        · exact hxb q hq

/-- Helper: with valid memo sets, an entry's memo size is bounded by
three times the accepted-list length. -/
theorem memo_length_le (s : AbsState) (hv : ValidState s) (x : AbsEntry)
    (hx : x ∈ s.queue) : x.memo.length ≤ 3 * s.rendered := by
  obtain ⟨hnd, hb⟩ := hv x hx
  have hsub : x.memo.toFinset ⊆
      Finset.range s.rendered ×ˢ (Finset.univ : Finset (Fin 3)) := by
    intro q hq
    rw [List.mem_toFinset] at hq
    rw [Finset.mem_product, Finset.mem_range]
    exact ⟨hb q hq, Finset.mem_univ _⟩
  have hcard := Finset.card_le_card hsub
  rw [List.toFinset_card_of_nodup hnd] at hcard
  simp only [Finset.card_product, Finset.card_range, Finset.card_univ,
    Fintype.card_fin] at hcard
  omega

/-- Helper: a list of constant value sums to length times the value. -/
theorem sum_map_const {α : Type} (l : List α) (f : α → ℕ) (K : ℕ)
    (h : ∀ c ∈ l, f c = K) : (l.map f).sum = l.length * K := by
  induction l with
  | nil => simp
  | cons a l ih =>
    simp only [List.map_cons, List.sum_cons, List.length_cons,
      h a (List.mem_cons_self _ _), ih (fun c hc => h c (List.mem_cons_of_mem _ hc))]
    ring

/-- Helper: each step strictly decreases the potential
`Σ 4 ^ (B - memo size)` over the queue, for any bound `B` exceeding
three times the current accepted-list length. -/
theorem absStep_pot_lt (B : ℕ) (s s' : AbsState) (h : AbsStep s s')
    (hv : ValidState s) (hB : 3 * s.rendered < B) :
    statePot B s' < statePot B s := by
  cases h with
  | accept l r x n =>
    simp only [statePot, List.map_append, List.sum_append, List.map_cons,
      List.sum_cons]
    have hx : 0 < entryPot B x := Nat.pos_pow_of_pos _ (by omega)
    omega
  | drop l r x n =>
    simp only [statePot, List.map_append, List.sum_append, List.map_cons,
      List.sum_cons]
    have hx : 0 < entryPot B x := Nat.pos_pow_of_pos _ (by omega)
    omega
  | split l r x n pr children hidx hnew hlen hmemo =>
    have hxmem : x ∈ (⟨l ++ x :: r, n⟩ : AbsState).queue :=
      List.mem_append_right _ (List.mem_cons_self _ _)
    have hxlen : x.memo.length ≤ 3 * n := memo_length_le ⟨l ++ x :: r, n⟩ hv x hxmem
    have hBn : 3 * n < B := hB
    have hchild : ∀ c ∈ children, entryPot B c = 4 ^ (B - (x.memo.length + 1)) := by
      intro c hc
      rw [entryPot, hmemo c hc]
      simp
    have hsum : (children.map (entryPot B)).sum =
        children.length * 4 ^ (B - (x.memo.length + 1)) :=
      sum_map_const children (entryPot B) _ hchild
    have hstep : B - x.memo.length = (B - (x.memo.length + 1)) + 1 := by omega
    have hp : 0 < 4 ^ (B - (x.memo.length + 1)) := Nat.pos_pow_of_pos _ (by omega)
    have hlen3 : children.length ≤ 3 := by rcases hlen with h' | h' <;> omega
    have hml : children.length * 4 ^ (B - (x.memo.length + 1)) ≤
        3 * 4 ^ (B - (x.memo.length + 1)) := Nat.mul_le_mul_right _ hlen3
    have hxpot : entryPot B x = 4 ^ (B - (x.memo.length + 1)) * 4 := by
      rw [entryPot, hstep, pow_succ]
    simp only [statePot, List.map_append, List.sum_append, List.map_cons,
      List.sum_cons]
    rw [hsum]
    omega

/-- C3 (amended): the memo discipline bounds the work-queue loop only
together with a bound on the accepted list: every infinite execution of
the discipline that starts from valid memo sets eventually grows its
accepted list beyond any fixed bound `R` (equivalently, an execution
whose accepted list stays within some bound performs only finitely many
pops). -/
theorem C3_bounded_memo_terminates (R : ℕ) (f : ℕ → AbsState)
    (hrun : IsRun f) (hinit : ValidState (f 0)) :
    ∃ n, R < (f n).rendered := by
  by_contra hcon
  push_neg at hcon
  have hvalid : ∀ n, ValidState (f n) := by
    intro n
    induction n with
    | zero => exact hinit
    | succ k ih => exact absStep_valid _ _ (hrun k) ih
  have hdec : ∀ n, statePot (3 * R + 1) (f (n + 1)) < statePot (3 * R + 1) (f n) := by
    intro n
    refine absStep_pot_lt _ _ _ (hrun n) (hvalid n) ?_
    have := hcon n
    omega
  have hmono : ∀ n, statePot (3 * R + 1) (f n) + n ≤ statePot (3 * R + 1) (f 0) := by
    intro n
    induction n with
    | zero => omega
    | succ k ih =>
      have := hdec k
      omega
  have := hmono (statePot (3 * R + 1) (f 0) + 1)
  omega

/-- Helper: mapping `SplitResult.Split` over an option inverts. -/
theorem map_split_inj (o : Option (List Tri)) (l : List Tri)
    (h : o.map SplitResult.Split = some (.Split l)) : o = some l := by
  rcases o with _ | l'
  · exact Option.noConfusion h
  · simp only [Option.map_some'] at h
    obtain h' := Option.some_injective _ h
    rw [SplitResult.Split.inj h']

/-- Helper: `split_triangle_aux` always produces 2 or 3 sub-triangles. -/
theorem aux_length (tri : Tri) (e : Fin 3) (isects : Fin 3 → RayInt)
    (l : List Tri) (h : split_triangle_aux tri e isects = some l) :
    l.length = 2 ∨ l.length = 3 := by
  unfold split_triangle_aux at h
  rcases h0 : (isects e).t2 with _ | t2 <;> simp only [h0] at h
  · exact Option.noConfusion h
  all_goals
    rcases h1 : (isects (e + 1)).t2 with _ | u2 <;> simp only [h1] at h
  case' some.some =>
    by_cases hu : inside_line_range u2 = true <;>
      simp only [hu, if_true, if_false, Bool.false_eq_true] at h
  all_goals
    try (rcases h2 : (isects (e + 2)).t2 with _ | v2 <;> simp only [h2] at h)
  all_goals
    try (by_cases hv : inside_line_range v2 = true <;>
      simp only [hv, if_true, if_false, Bool.false_eq_true] at h)
  all_goals
    obtain rfl := Option.some_injective _ h
  all_goals
    simp

/-- Helper: every `Split` outcome of `split_triangle_by_segment` holds
2 or 3 sub-triangles. -/
theorem split_by_segment_length (tri : Tri) (p0 p1 : Vec2) (l : List Tri)
    (h : split_triangle_by_segment tri p0 p1 = some (.Split l)) :
    l.length = 2 ∨ l.length = 3 := by
  simp only [split_triangle_by_segment] at h
  unfold splitCases at h
  split at h
  · exact aux_length _ _ _ _ (map_split_inj _ _ h)
  · split at h
    · simp at h
    · split at h
      · simp at h
      · split at h
        · exact aux_length _ _ _ _ (map_split_inj _ _ h)
        · simp at h
      · exact aux_length _ _ _ _ (map_split_inj _ _ h)
      · split at h
        · simp at h
        · split at h
          · exact aux_length _ _ _ _ (map_split_inj _ _ h)
          · exact aux_length _ _ _ _ (map_split_inj _ _ h)
      · exact aux_length _ _ _ _ (map_split_inj _ _ h)
      · simp at h
      · simp at h
      · split at h
        · simp at h
        · exact Option.noConfusion h

/-- Helper: a nonempty queue always pops. -/
theorem popMax_eq_none (h : List ZsortPrim) (hp : popMax h = none) : h = [] := by
  cases h with
  | nil => rfl
  | cons a xs =>
    rw [popMax] at hp
    rcases hq : popMax xs with _ | ⟨m, r⟩ <;> simp only [hq] at hp
    · exact Option.noConfusion hp
    · by_cases hlt : a.z < m.z
      · rw [if_pos hlt] at hp
        exact Option.noConfusion hp
      · rw [if_neg hlt] at hp
        exact Option.noConfusion hp

/-- Helper: popping returns an element of the queue at some position,
and the rest of the queue with that position removed. -/
theorem popMax_decomp (h : List ZsortPrim) :
    ∀ (x : ZsortPrim) (rest : List ZsortPrim), popMax h = some (x, rest) →
      ∃ dl dr, h = dl ++ x :: dr ∧ rest = dl ++ dr := by
  induction h with
  | nil => intro x rest hp; exact Option.noConfusion hp
  | cons a xs ih =>
    intro x rest hp
    rw [popMax] at hp
    rcases hq : popMax xs with _ | ⟨m, r⟩ <;> simp only [hq] at hp
    · obtain rfl := popMax_eq_none xs hq
      simp only [Option.some.injEq, Prod.mk.injEq] at hp
      obtain ⟨rfl, rfl⟩ := hp
      exact ⟨[], [], rfl, rfl⟩
    · by_cases hlt : a.z < m.z
      · rw [if_pos hlt] at hp
        simp only [Option.some.injEq, Prod.mk.injEq] at hp
        obtain ⟨rfl, rfl⟩ := hp
        obtain ⟨dl, dr, hxs, hr⟩ := ih _ _ hq
        exact ⟨a :: dl, dr, by rw [hxs]; rfl, by rw [hr]; rfl⟩
      · rw [if_neg hlt] at hp
        simp only [Option.some.injEq, Prod.mk.injEq] at hp
        obtain ⟨rfl, rfl⟩ := hp
        exact ⟨[], xs, rfl, rfl⟩

/-- Helper: a successful result of the edge-test fold is the
accumulator's or comes from one edge's test. -/
theorem tryEdgeStep_fold_found (tri : Tri) (x : ZsortPrim) (izp : ℕ)
    (tt : Tri) (l : List (Fin 3)) :
    ∀ (acc : Option (Option (Fin 3 × List Tri))) (r : Fin 3 × List Tri),
      l.foldl (tryEdgeStep tri x izp tt) acc = some (some r) →
      acc = some (some r) ∨ ∃ j ∈ l, tryEdgeBody tri x izp tt j = some (some r) := by
  induction l with
  | nil => intro acc r h; exact Or.inl h
  | cons a l ih =>
    intro acc r h
    simp only [List.foldl_cons] at h
    rcases ih _ r h with hacc | ⟨j, hj, hbody⟩
    · rcases acc with _ | acc2
      · simp [tryEdgeStep] at hacc
      · rcases acc2 with _ | r2
        · exact Or.inr ⟨a, List.mem_cons_self _ _, by simpa [tryEdgeStep] using hacc⟩
        · exact Or.inl (by simpa [tryEdgeStep] using hacc)
    · exact Or.inr ⟨j, List.mem_cons_of_mem _ hj, hbody⟩

/-- Helper: a successful single edge test means the pair was not
memoized and the split succeeded on that edge. -/
theorem tryEdgeBody_split (tri : Tri) (x : ZsortPrim) (izp : ℕ) (tt : Tri)
    (j i : Fin 3) (tris : List Tri)
    (h : tryEdgeBody tri x izp tt j = some (some (i, tris))) :
    x.already_checked izp j = false ∧
    split_triangle_by_segment tri ((tt.p j).xy) ((tt.p (j + 1)).xy) =
      some (.Split tris) ∧ i = j := by
  unfold tryEdgeBody at h
  by_cases hch : x.already_checked izp j = true
  · rw [if_pos hch] at h
    simp at h
  · simp only [Bool.not_eq_true] at hch
    simp only [hch, Bool.false_eq_true, if_false] at h
    rcases hs : split_triangle_by_segment tri ((tt.p j).xy) ((tt.p (j + 1)).xy)
      with _ | sr <;> simp only [hs] at h
    · exact Option.noConfusion h
    · rcases sr with _ | tris0 | _
      · simp at h
      · simp only [Option.some.injEq, Prod.mk.injEq] at h
        obtain ⟨rfl, rfl⟩ := h
        exact ⟨hch, rfl, rfl⟩
      · simp at h

/-- Helper: a successful scan's split happens at an index into the
accepted list, on a pair not yet memoized, and the children extend the
memo set by exactly that pair. -/
theorem scan_splitPush_shape (tri : Tri) (x : ZsortPrim) :
    ∀ (r : List ZsortPrim) (izp0 : ℕ) (children : List ZsortPrim),
      scan tri x r izp0 = some (.splitPush children) →
      ∃ (izp : ℕ) (i : Fin 3) (tris : List Tri), izp0 ≤ izp ∧
        izp < izp0 + r.length ∧
        x.already_checked izp i = false ∧
        (tris.length = 2 ∨ tris.length = 3) ∧
        children = tris.map (fun t => ZsortPrim.new (.tri t) ((izp, i) :: x.presplit)) := by
  intro r
  induction r with
  | nil =>
    intro izp0 children hsc
    simp only [scan] at hsc
    exact absurd hsc (by simp)
  | cons zp rest ih =>
    intro izp0 children hsc
    simp only [scan] at hsc
    have bump : ∀ (izp : ℕ) (i : Fin 3) (tris : List Tri), izp0 + 1 ≤ izp →
        izp < izp0 + 1 + rest.length →
        x.already_checked izp i = false → (tris.length = 2 ∨ tris.length = 3) →
        children = tris.map (fun t => ZsortPrim.new (.tri t) ((izp, i) :: x.presplit)) →
        ∃ (izp : ℕ) (i : Fin 3) (tris : List Tri), izp0 ≤ izp ∧
          izp < izp0 + (zp :: rest).length ∧
          x.already_checked izp i = false ∧ (tris.length = 2 ∨ tris.length = 3) ∧
          children = tris.map (fun t => ZsortPrim.new (.tri t) ((izp, i) :: x.presplit)) := by
      intro izp i tris hle hlt hch hlen hc
      exact ⟨izp, i, tris, by omega, by simp only [List.length_cons]; omega, hch,
        hlen, hc⟩
    rcases hzp : zp.p with p | ⟨a, b⟩ | tt <;> simp only [hzp] at hsc
    · obtain ⟨izp, i, tris, h1, h2, h3, h4, h5⟩ := ih _ _ hsc
      exact bump izp i tris h1 h2 h3 h4 h5
    · obtain ⟨izp, i, tris, h1, h2, h3, h4, h5⟩ := ih _ _ hsc
      exact bump izp i tris h1 h2 h3 h4 h5
    · by_cases hh : tt.is_hidden = true
      · rw [if_pos hh] at hsc
        obtain ⟨izp, i, tris, h1, h2, h3, h4, h5⟩ := ih _ _ hsc
        exact bump izp i tris h1 h2 h3 h4 h5
      · rw [if_neg hh] at hsc
        rcases hte : tryEdges tri x izp0 tt with _ | rr <;> simp only [hte] at hsc
        · exact Option.noConfusion hsc
        · rcases rr with _ | ⟨i, tris⟩ <;> simp only at hsc
          · by_cases hc : triangle_in_triangle_2d tri tt = true
            · rw [if_pos hc] at hsc
              exact absurd hsc (by simp)
            · rw [if_neg hc] at hsc
              obtain ⟨izp, i, tris, h1, h2, h3, h4, h5⟩ := ih _ _ hsc
              exact bump izp i tris h1 h2 h3 h4 h5
          · simp only [Option.some.injEq, ScanRes.splitPush.injEq] at hsc
            rcases tryEdgeStep_fold_found tri x izp0 tt (List.finRange 3)
                (some none) (i, tris) hte with habs | ⟨j, _, hbody⟩
            · simp at habs
            · obtain ⟨hch, hsplit, rfl⟩ := tryEdgeBody_split tri x izp0 tt j i tris hbody
              exact ⟨izp0, i, tris, le_refl _, by simp, hch,
                split_by_segment_length tri _ _ tris hsplit, hsc.symm⟩

/-- C3 helper (refinement): every non-terminal iteration of the
concrete work-queue loop is a step of the abstract memo discipline
`AbsStep`, so the abstract system soundly over-approximates the
source's loop. -/
theorem renderStep_refines (r h r' h' : List ZsortPrim)
    (hs : renderStep r h = .next r' h') :
    AbsStep (absOf r h) (absOf r' h') := by
  unfold renderStep at hs
  rcases hp : popMax h with _ | ⟨x, heap'⟩ <;> simp only [hp] at hs
  · exact StepRes.noConfusion hs
  obtain ⟨dl, dr, hdecomp, hrest⟩ := popMax_decomp h x heap' hp
  unfold stepPopped at hs
  rcases hxp : x.p with p | ⟨a, b⟩ | t <;> simp only [hxp] at hs
  · obtain ⟨rfl, rfl⟩ := StepRes.next.inj hs
    have := AbsStep.accept (dl.map (fun z => ⟨z.presplit⟩))
      (dr.map (fun z => ⟨z.presplit⟩)) ⟨x.presplit⟩ r.length
    simp only [absOf, hdecomp, hrest, List.map_append, List.map_cons]
    simpa [List.length_append] using this
  · obtain ⟨rfl, rfl⟩ := StepRes.next.inj hs
    have := AbsStep.accept (dl.map (fun z => ⟨z.presplit⟩))
      (dr.map (fun z => ⟨z.presplit⟩)) ⟨x.presplit⟩ r.length
    simp only [absOf, hdecomp, hrest, List.map_append, List.map_cons]
    simpa [List.length_append] using this
  · by_cases hw : t.winding_2d = .Degenerate
    · rw [if_pos hw] at hs
      obtain ⟨rfl, rfl⟩ := StepRes.next.inj hs
      have := AbsStep.drop (dl.map (fun z => ⟨z.presplit⟩))
        (dr.map (fun z => ⟨z.presplit⟩)) ⟨x.presplit⟩ r.length
      simp only [absOf, hdecomp, hrest, List.map_append, List.map_cons]
      exact this
    · rw [if_neg hw] at hs
      rcases hsc : scan t x r 0 with _ | ⟨children⟩ | hid <;> simp only [hsc] at hs
      · exact StepRes.noConfusion hs
      · obtain ⟨rfl, rfl⟩ := StepRes.next.inj hs
        obtain ⟨izp, i, tris, -, hlt, hch, hlen, rfl⟩ :=
          scan_splitPush_shape t x r 0 children hsc
        have hnew : (izp, i) ∉ x.presplit := by
          intro hmem
          rw [ZsortPrim.already_checked, decide_eq_true hmem] at hch
          exact Bool.noConfusion hch
        have := AbsStep.split (dl.map (fun z => ⟨z.presplit⟩))
          (dr.map (fun z => ⟨z.presplit⟩)) ⟨x.presplit⟩ r.length (izp, i)
          (tris.map (fun t' => (⟨(izp, i) :: x.presplit⟩ : AbsEntry)))
          (by simpa using hlt)
          hnew
          (by rcases hlen with h' | h' <;> simp [h'])
          (by intro c hc; obtain ⟨t', _, rfl⟩ := List.mem_map.mp hc; rfl)
        simp only [absOf, hdecomp, hrest, List.map_append, List.map_cons,
          List.map_map]
        convert this using 2
      · obtain ⟨rfl, rfl⟩ := StepRes.next.inj hs
        have := AbsStep.accept (dl.map (fun z => ⟨z.presplit⟩))
          (dr.map (fun z => ⟨z.presplit⟩)) ⟨x.presplit⟩ r.length
        simp only [absOf, hdecomp, hrest, List.map_append, List.map_cons,
          List.length_append, List.length_cons]
        simpa using this

/-- C3 (counterexample): the discipline the claim cites — each split
records a new (accepted-index, edge) pair, memo sets are inherited and
only grow, the accepted list is finite at every step — admits an
infinite execution, along which the accepted list (and hence the pair
space) grows without bound; the cited invariants alone therefore do not
bound the number of processed entries. -/
theorem C3_counterexample : IsRun badRun ∧ RenderedUnbounded badRun :=
  ⟨badRun_isRun, badRun_unbounded⟩

/-- C3 witness: `C3_bounded_memo_terminates` applied to the concrete
infinite execution `badRun` with bound 5. -/
theorem C3_witness : ∃ n, 5 < (badRun n).rendered :=
  C3_bounded_memo_terminates 5 badRun badRun_isRun (by
    intro x hx
    rcases List.mem_cons.mp hx with rfl | hx
    · exact ⟨List.nodup_nil, by simp [memoM]⟩
    · rcases List.mem_singleton.mp hx with rfl
      exact ⟨List.nodup_nil, by simp [memoM]⟩)

/-- Helper: a 3-vector of edge tags takes one of its three entries. -/
theorem vec3_cases {α : Type} (a b c : α) (j : Fin 3) :
    (![a, b, c] : Fin 3 → α) j = a ∨ (![a, b, c] : Fin 3 → α) j = b ∨
      (![a, b, c] : Fin 3 → α) j = c := by
  fin_cases j <;> simp

/-- Helper: every sub-triangle produced by `split_triangle_aux` carries
only edge tags of the original triangle or the `Split` tag; in
particular no `Culled` tag appears if the original carries none. -/
theorem aux_noCulled (tri : Tri) (e : Fin 3) (isects : Fin 3 → RayInt)
    (l : List Tri) (h : split_triangle_aux tri e isects = some l)
    (hnc : ∀ k, tri.e k ≠ .Culled) :
    ∀ t' ∈ l, ∀ j, t'.e j ≠ .Culled := by
  have hsplit : (EdgeType.Split : EdgeType) ≠ .Culled := by
    with_unfolding_all decide
  unfold split_triangle_aux at h
  rcases h0 : (isects e).t2 with _ | t2 <;> simp only [h0] at h
  · exact Option.noConfusion h
  all_goals
    rcases h1 : (isects (e + 1)).t2 with _ | u2 <;> simp only [h1] at h
  case' some.some =>
    by_cases hu : inside_line_range u2 = true <;>
      simp only [hu, if_true, if_false, Bool.false_eq_true] at h
  all_goals
    try (rcases h2 : (isects (e + 2)).t2 with _ | v2 <;> simp only [h2] at h)
  all_goals
    try (by_cases hv : inside_line_range v2 = true <;>
      simp only [hv, if_true, if_false, Bool.false_eq_true] at h)
  all_goals
    obtain rfl := Option.some_injective _ h
  all_goals
    intro t' ht' j
  all_goals
    simp only [List.mem_cons, List.not_mem_nil, or_false] at ht'
  all_goals
    rcases ht' with rfl | rfl | rfl <;> dsimp only <;>
      rcases vec3_cases _ _ _ j with hj | hj | hj <;> rw [hj] <;>
        first
          | exact hsplit
          | exact hnc _

/-- Helper: every `Split` outcome of `split_triangle_by_segment` comes
from `split_triangle_aux`, so its sub-triangles carry no `Culled` tag
if the original triangle carries none. -/
theorem split_by_segment_noCulled (tri : Tri) (p0 p1 : Vec2) (l : List Tri)
    (h : split_triangle_by_segment tri p0 p1 = some (.Split l))
    (hnc : ∀ k, tri.e k ≠ .Culled) :
    ∀ t' ∈ l, ∀ j, t'.e j ≠ .Culled := by
  simp only [split_triangle_by_segment] at h
  unfold splitCases at h
  split at h
  · exact aux_noCulled _ _ _ _ (map_split_inj _ _ h) hnc
  · split at h
    · simp at h
    · split at h
      · simp at h
      · split at h
        · exact aux_noCulled _ _ _ _ (map_split_inj _ _ h) hnc
        · simp at h
      · exact aux_noCulled _ _ _ _ (map_split_inj _ _ h) hnc
      · split at h
        · simp at h
        · split at h
          · exact aux_noCulled _ _ _ _ (map_split_inj _ _ h) hnc
          · exact aux_noCulled _ _ _ _ (map_split_inj _ _ h) hnc
      · exact aux_noCulled _ _ _ _ (map_split_inj _ _ h) hnc
      · simp at h
      · simp at h
      · split at h
        · simp at h
        · exact Option.noConfusion h

/-- Helper: the children pushed by a successful scan all come from one
`Split` outcome of `split_triangle_by_segment` on the popped triangle,
so they carry no `Culled` tag when the popped triangle carries none. -/
theorem scan_splitPush_noCulled (tri : Tri) (x : ZsortPrim)
    (hnc : ∀ k, tri.e k ≠ .Culled) :
    ∀ (r : List ZsortPrim) (izp : ℕ) (children : List ZsortPrim),
      scan tri x r izp = some (.splitPush children) →
      ∀ c ∈ children, primNoCulled c.p = true := by
  intro r
  induction r with
  | nil =>
    intro izp children hsc
    simp only [scan] at hsc
    exact absurd hsc (by simp)
  | cons zp rest ih =>
    intro izp children hsc
    simp only [scan] at hsc
    rcases hzp : zp.p with p | ⟨a, b⟩ | tt <;> simp only [hzp] at hsc
    · exact ih _ _ hsc
    · exact ih _ _ hsc
    · by_cases hh : tt.is_hidden = true
      · rw [if_pos hh] at hsc
        exact ih _ _ hsc
      · rw [if_neg hh] at hsc
        rcases hte : tryEdges tri x izp tt with _ | rr <;> simp only [hte] at hsc
        · exact Option.noConfusion hsc
        · rcases rr with _ | ⟨i, tris⟩ <;> simp only at hsc
          · by_cases hc : triangle_in_triangle_2d tri tt = true
            · rw [if_pos hc] at hsc
              exact absurd hsc (by simp)
            · rw [if_neg hc] at hsc
              exact ih _ _ hsc
          · simp only [Option.some.injEq, ScanRes.splitPush.injEq] at hsc
            intro c hc
            rw [← hsc] at hc
            obtain ⟨t', ht', rfl⟩ := List.mem_map.mp hc
            rcases tryEdgeStep_fold_found tri x izp tt (List.finRange 3) (some none)
                (i, tris) hte with habs | ⟨j, _, hbody⟩
            · simp at habs
            · obtain ⟨_, hsplit, _⟩ := tryEdgeBody_split tri x izp tt j i tris hbody
              have hnc' := split_by_segment_noCulled tri _ _ tris hsplit hnc t' ht'
              simp only [ZsortPrim.new, primNoCulled, decide_eq_true_eq]
              exact hnc'

/-- Helper: a popped entry is a queue member, and the remaining queue's
entries are queue members. -/
theorem popMax_mem (h : List ZsortPrim) :
    ∀ (x : ZsortPrim) (rest : List ZsortPrim), popMax h = some (x, rest) →
      x ∈ h ∧ ∀ z ∈ rest, z ∈ h := by
  induction h with
  | nil => intro x rest hp; exact Option.noConfusion hp
  | cons a xs ih =>
    intro x rest hp
    rw [popMax] at hp
    rcases hq : popMax xs with _ | ⟨m, r⟩ <;> simp only [hq] at hp
    · simp only [Option.some.injEq, Prod.mk.injEq] at hp
      obtain ⟨rfl, rfl⟩ := hp
      exact ⟨List.mem_cons_self _ _, by simp⟩
    · by_cases hlt : a.z < m.z
      · rw [if_pos hlt] at hp
        simp only [Option.some.injEq, Prod.mk.injEq] at hp
        obtain ⟨rfl, rfl⟩ := hp
        obtain ⟨hm, hsub⟩ := ih _ _ hq
        refine ⟨List.mem_cons_of_mem _ hm, ?_⟩
        intro z hz
        rcases List.mem_cons.mp hz with rfl | hz
        · exact List.mem_cons_self _ _
        · exact List.mem_cons_of_mem _ (hsub _ hz)
      · rw [if_neg hlt] at hp
        simp only [Option.some.injEq, Prod.mk.injEq] at hp
        obtain ⟨rfl, rfl⟩ := hp
        exact ⟨List.mem_cons_self _ _, fun z hz => List.mem_cons_of_mem _ hz⟩

/-- Helper: one loop iteration preserves "no primitive carries a
`Culled` tag" over both the accepted list and the queue. -/
theorem renderStep_preserves_noCulled (r h r' h' : List ZsortPrim)
    (hr : ∀ z ∈ r, primNoCulled z.p = true)
    (hh : ∀ z ∈ h, primNoCulled z.p = true)
    (hs : renderStep r h = .next r' h') :
    (∀ z ∈ r', primNoCulled z.p = true) ∧ (∀ z ∈ h', primNoCulled z.p = true) := by
  unfold renderStep at hs
  rcases hp : popMax h with _ | ⟨x, heap'⟩ <;> simp only [hp] at hs
  · exact StepRes.noConfusion hs
  obtain ⟨hxmem, hsub⟩ := popMax_mem h x heap' hp
  have hhx : primNoCulled x.p = true := hh x hxmem
  have hheap' : ∀ z ∈ heap', primNoCulled z.p = true := fun z hz => hh z (hsub z hz)
  unfold stepPopped at hs
  rcases hxp : x.p with p | ⟨a, b⟩ | t <;> simp only [hxp] at hs
  · obtain ⟨rfl, rfl⟩ := StepRes.next.inj hs
    refine ⟨?_, hheap'⟩
    intro z hz
    rcases List.mem_append.mp hz with hz | hz
    · exact hr z hz
    · obtain rfl := List.mem_singleton.mp hz
      exact hhx
  · obtain ⟨rfl, rfl⟩ := StepRes.next.inj hs
    refine ⟨?_, hheap'⟩
    intro z hz
    rcases List.mem_append.mp hz with hz | hz
    · exact hr z hz
    · obtain rfl := List.mem_singleton.mp hz
      exact hhx
  · have htnc : ∀ k, t.e k ≠ .Culled := by
      rw [hxp] at hhx
      simpa only [primNoCulled, decide_eq_true_eq] using hhx
    by_cases hw : t.winding_2d = .Degenerate
    · rw [if_pos hw] at hs
      obtain ⟨rfl, rfl⟩ := StepRes.next.inj hs
      exact ⟨hr, hheap'⟩
    · rw [if_neg hw] at hs
      rcases hsc : scan t x r 0 with _ | ⟨children⟩ | hid <;> simp only [hsc] at hs
      · exact StepRes.noConfusion hs
      · obtain ⟨rfl, rfl⟩ := StepRes.next.inj hs
        refine ⟨hr, ?_⟩
        intro z hz
        rcases List.mem_append.mp hz with hz | hz
        · exact hheap' z hz
        · exact scan_splitPush_noCulled t x htnc r 0 children hsc z hz
      · obtain ⟨rfl, rfl⟩ := StepRes.next.inj hs
        refine ⟨?_, hheap'⟩
        intro z hz
        rcases List.mem_append.mp hz with hz | hz
        · exact hr z hz
        · obtain rfl := List.mem_singleton.mp hz
          by_cases hhid : hid = true
          · rw [if_pos hhid]
            simp [Primitive.hide, Tri.hide, primNoCulled]
          · rw [if_neg hhid]
            exact hhx

/-- Helper: the loop preserves "no primitive carries a `Culled` tag"
across any number of iterations. -/
theorem renderLoop_preserves_noCulled (fuel : ℕ) :
    ∀ (r h : List ZsortPrim) (s' : List ZsortPrim × List ZsortPrim),
      (∀ z ∈ r, primNoCulled z.p = true) →
      (∀ z ∈ h, primNoCulled z.p = true) →
      renderLoop fuel r h = some s' →
      ∀ z ∈ s'.1, primNoCulled z.p = true := by
  induction fuel with
  | zero =>
    intro r h s' hr _ hrun
    rw [renderLoop] at hrun
    obtain rfl := Option.some_injective _ hrun
    exact hr
  | succ n ih =>
    intro r h s' hr hh hrun
    rw [renderLoop] at hrun
    rcases hs : renderStep r h with _ | _ | ⟨r2, h2⟩ <;> rw [hs] at hrun
    · obtain rfl := Option.some_injective _ hrun
      exact hr
    · exact Option.noConfusion hrun
    · obtain ⟨hr2, hh2⟩ := renderStep_preserves_noCulled r h r2 h2 hr hh hs
      exact ih r2 h2 s' hr2 hh2 hrun

/-- Helper: the winding `filter_map` passes primitives through
unchanged when it keeps them. -/
theorem windingFilter_eq (pr pr' : Primitive)
    (h : windingFilter pr = some pr') : pr' = pr := by
  unfold windingFilter at h
  rcases pr with p | ⟨a, b⟩ | t
  · exact (Option.some_injective _ h).symm
  · exact (Option.some_injective _ h).symm
  · rcases hw : t.winding_2d with _ | _ | _ <;> simp only [hw] at h
    · exact (Option.some_injective _ h).symm
    · exact (Option.some_injective _ h).symm
    · exact Option.noConfusion h

/-- Helper: projection keeps edge tags, hence preserves the absence of
`Culled` tags. -/
theorem proj_prim_noCulled (c : Mat4) (pr : Primitive) :
    primNoCulled (proj_prim c pr) = primNoCulled pr := by
  rcases pr <;> simp [proj_prim, primNoCulled]

/-- Helper: every entry of the initial priority queue built by
`render()` (projection, conservative cull, winding filter) carries no
`Culled` tag when no input primitive does. -/
theorem initial_heap_noCulled (clip : Mat4) (dr : ℚ × ℚ)
    (input : List Primitive)
    (hin : ∀ pr ∈ input, primNoCulled pr = true) :
    ∀ z ∈ (((input.map (proj_prim clip)).filter
      (fun p => ¬ is_prim_culled dr p)).filterMap windingFilter).map
      (fun p => ZsortPrim.new p []), primNoCulled z.p = true := by
  intro z hz
  obtain ⟨q, hq, rfl⟩ := List.mem_map.mp hz
  obtain ⟨q0, hq0, hwf⟩ := List.mem_filterMap.mp hq
  obtain rfl := windingFilter_eq q0 q hwf
  have hq1 := List.mem_of_mem_filter hq0
  obtain ⟨q2, hq2, rfl⟩ := List.mem_map.mp hq1
  show primNoCulled (proj_prim clip q2) = true
  rw [proj_prim_noCulled]
  exact hin q2 hq2

/-- C10 (amended): no operation on the render path assigns the `Culled`
edge type, so when no input primitive carries a `Culled` tag (as with
all primitives built by `addPoint`/`addLine`/`addTriangle`/
`addPolygon`), no line of `render()`'s output is tagged `Culled`. -/
theorem C10_render_no_culled (clip : Mat4) (dr : ℚ × ℚ)
    (input : List Primitive) (fuel : ℕ) (out : RenderPaths)
    (hin : ∀ pr ∈ input, primNoCulled pr = true)
    (hout : render clip dr input fuel = some out) :
    ∀ l ∈ out.lines, l.edge ≠ .Culled := by
  simp only [render] at hout
  rw [Option.map_eq_some'] at hout
  obtain ⟨s', hl, rfl⟩ := hout
  have hrend := renderLoop_preserves_noCulled fuel _ _ s' (by simp)
    (initial_heap_noCulled clip dr input hin) hl
  intro l hlmem
  simp only [toRenderPaths, List.mem_flatMap] at hlmem
  obtain ⟨z, hz, hlz⟩ := hlmem
  have hznc := hrend z hz
  rcases hzp : z.p with p | ⟨a, b⟩ | t <;> rw [hzp] at hlz
  · simp [primLines] at hlz
  · simp only [primLines, List.mem_singleton] at hlz
    obtain rfl := hlz
    exact fun hcon => EdgeType.noConfusion hcon
  · rw [hzp] at hznc
    simp only [primNoCulled, decide_eq_true_eq] at hznc
    simp only [primLines, List.mem_cons, List.not_mem_nil, or_false] at hlz
    rcases hlz with rfl | rfl | rfl <;> exact hznc _

/-- C10 witness: the single visible unit triangle renders with no
`Culled` line, through `C10_render_no_culled`. -/
theorem C10_witness :
    ∃ out, render idMat (-1, 1) [.tri unitTri] 2 = some out ∧
      ∀ l ∈ out.lines, l.edge ≠ .Culled := by
  rcases hout : render idMat (-1, 1) [.tri unitTri] 2 with _ | out
  · have hsome : (render idMat (-1, 1) [.tri unitTri] 2).isSome = true := by
      with_unfolding_all decide
    rw [hout] at hsome
    exact Bool.noConfusion hsome
  · exact ⟨out, rfl, C10_render_no_culled idMat (-1, 1) [.tri unitTri] 2 out
      (by with_unfolding_all decide) hout⟩

/-- C9 (counterexample): `triangle_in_triangle_2d` is not reflexive on
every triangle: for a 2D-colinear triangle the barycentric system is
singular, every vertex classifies `Outside`, and the containment test
answers `false`. -/
theorem C9_counterexample :
    triangle_in_triangle_2d colinTri colinTri = false ∧ baryDet colinTri = 0 := by
  refine ⟨by with_unfolding_all decide, by with_unfolding_all decide⟩

/-- C4: the sub-triangle edge tags assigned by `split_triangle_aux` for
a split on edge `e`: in the 3-triangle case (second crossing on edge
`e+1`) the tags are `[tag e, tag (e+1), Split]`,
`[Split, tag (e+1), Split]`, `[Split, tag (e+2), tag e]`; in the
2-triangle case (no in-range crossing on `e+1` or `e+2`, the cut exits
through the opposite vertex) the triangles are
`[p, vtx (e+1), vtx (e+2)]` with tags `[tag e, tag (e+1), Split]` and
`[p, vtx (e+2), vtx e]` with tags `[Split, tag (e+2), tag e]`. -/
theorem C4_split_tags (tri : Tri) (e : Fin 3) (isects : Fin 3 → RayInt)
    (t1 t2 : ℚ) (h : isects e = .Intersection t1 t2) :
    (∀ u1 u2, isects (e + 1) = .Intersection u1 u2 → inside_line_range u2 = true →
      split_triangle_aux tri e isects =
        some [⟨![perspective_lerp t2 (tri.p e) (tri.p (e + 1)), tri.p (e + 1),
                 perspective_lerp u2 (tri.p (e + 1)) (tri.p (e + 2))],
               ![tri.e e, tri.e (e + 1), .Split]⟩,
              ⟨![perspective_lerp t2 (tri.p e) (tri.p (e + 1)),
                 perspective_lerp u2 (tri.p (e + 1)) (tri.p (e + 2)), tri.p (e + 2)],
               ![.Split, tri.e (e + 1), .Split]⟩,
              ⟨![perspective_lerp t2 (tri.p e) (tri.p (e + 1)), tri.p (e + 2), tri.p e],
               ![.Split, tri.e (e + 2), tri.e e]⟩]) ∧
    ((∀ u, (isects (e + 1)).t2 = some u → inside_line_range u = false) →
     (∀ u, (isects (e + 2)).t2 = some u → inside_line_range u = false) →
      split_triangle_aux tri e isects =
        some [⟨![perspective_lerp t2 (tri.p e) (tri.p (e + 1)), tri.p (e + 1),
                 tri.p (e + 2)],
               ![tri.e e, tri.e (e + 1), .Split]⟩,
              ⟨![perspective_lerp t2 (tri.p e) (tri.p (e + 1)), tri.p (e + 2), tri.p e],
               ![.Split, tri.e (e + 2), tri.e e]⟩]) := by
  constructor
  · intro u1 u2 h1 hr
    simp only [split_triangle_aux, h, h1, RayInt.t2, hr, if_true]
  · intro h1 h2
    rcases he1 : isects (e + 1) with _ | _ | ⟨a, b⟩ <;>
      rcases he2 : isects (e + 2) with _ | _ | ⟨c, d⟩ <;>
        simp only [split_triangle_aux, h, he1, he2, RayInt.t2]
    · have hb : inside_line_range d = false := h2 d (by rw [he2]; rfl)
      simp [hb]
    · have hb : inside_line_range d = false := h2 d (by rw [he2]; rfl)
      simp [hb]
    · have hb : inside_line_range b = false := h1 b (by rw [he1]; rfl)
      simp [hb]
    · have hb : inside_line_range b = false := h1 b (by rw [he1]; rfl)
      simp [hb]
    · have hb : inside_line_range b = false := h1 b (by rw [he1]; rfl)
      have hd : inside_line_range d = false := h2 d (by rw [he2]; rfl)
      simp [hb, hd]

/-- C4 witness: a concrete 3-way split of `bigTri` on edge 1, obtained
by applying `C4_split_tags`. -/
theorem C4_witness :
    split_triangle_aux bigTri 1 (edgeIsects bigTri ⟨1, 1⟩ ⟨2, 1⟩) =
      some [⟨![perspective_lerp (1/10) (bigTri.p 1) (bigTri.p 2), bigTri.p 2,
               perspective_lerp (9/10) (bigTri.p 2) (bigTri.p 0)],
             ![bigTri.e 1, bigTri.e 2, .Split]⟩,
            ⟨![perspective_lerp (1/10) (bigTri.p 1) (bigTri.p 2),
               perspective_lerp (9/10) (bigTri.p 2) (bigTri.p 0), bigTri.p 0],
             ![.Split, bigTri.e 2, .Split]⟩,
            ⟨![perspective_lerp (1/10) (bigTri.p 1) (bigTri.p 2), bigTri.p 0,
               bigTri.p 1],
             ![.Split, bigTri.e 0, bigTri.e 1]⟩] := by
  have h := (C4_split_tags bigTri 1 (edgeIsects bigTri ⟨1, 1⟩ ⟨2, 1⟩) 8 (1/10)
      (by with_unfolding_all decide)).1 (-1) (9/10)
      (by with_unfolding_all decide) (by with_unfolding_all decide)
  exact h

/-- Helper: folding `minPosStep` from a seed yields the seed or a list
element, of minimal first parameter among the seed and the list. -/
theorem minPosStep_fold_some (l : List (Fin 3 × ℚ × ℚ)) (b : Fin 3 × ℚ × ℚ) :
    ∃ c, l.foldl minPosStep (some b) = some c ∧ (c = b ∨ c ∈ l) ∧
      c.2.1 ≤ b.2.1 ∧ ∀ d ∈ l, c.2.1 ≤ d.2.1 := by
  induction l generalizing b with
  | nil => exact ⟨b, rfl, Or.inl rfl, le_refl _, by simp⟩
  | cons a l ih =>
    by_cases hab : a.2.1 < b.2.1
    · obtain ⟨c, hc, hmem, hle, hall⟩ := ih a
      refine ⟨c, ?_, ?_, ?_, ?_⟩
      · simpa [minPosStep, hab] using hc
      · rcases hmem with rfl | hm
        · exact Or.inr (List.mem_cons_self _ _)
        · exact Or.inr (List.mem_cons_of_mem _ hm)
      · exact le_of_lt (lt_of_le_of_lt hle hab)
      · intro d hd
        rcases List.mem_cons.mp hd with rfl | hd
        · exact hle
        · exact hall d hd
    · obtain ⟨c, hc, hmem, hle, hall⟩ := ih b
      refine ⟨c, ?_, ?_, hle, ?_⟩
      · simpa [minPosStep, hab] using hc
      · rcases hmem with rfl | hm
        · exact Or.inl rfl
        · exact Or.inr (List.mem_cons_of_mem _ hm)
      · intro d hd
        rcases List.mem_cons.mp hd with rfl | hd
        · exact le_trans hle (not_lt.mp hab)
        · exact hall d hd

/-- Helper: membership in the candidate list of the `min_by` selection
describes exactly the strictly-positive edge intersections. -/
theorem minPosCands_mem (isects : Fin 3 → RayInt) (c : Fin 3 × ℚ × ℚ) :
    c ∈ minPosCands isects ↔
      isects c.1 = .Intersection c.2.1 c.2.2 ∧ 0 < c.2.1 := by
  constructor
  · intro hc
    obtain ⟨i, _, hf⟩ := List.mem_filterMap.mp hc
    rcases hi : isects i with _ | _ | ⟨a, b⟩ <;> rw [hi] at hf
    · simp at hf
    · simp at hf
    · by_cases hpos : 0 < a
      · simp only [hpos, if_true] at hf
        obtain rfl := Option.some_injective _ hf
        exact ⟨hi, hpos⟩
      · simp [hpos] at hf
  · rintro ⟨hc, hpos⟩
    refine List.mem_filterMap.mpr ⟨c.1, List.mem_finRange _, ?_⟩
    rw [hc]
    simp [hpos]

/-- Helper: the `min_by` selection returns an actual strictly-positive
edge intersection of minimal first parameter, and returns `none` only
when no edge intersection has a strictly positive first parameter. -/
theorem minPosIsect_spec (isects : Fin 3 → RayInt) :
    (minPosIsect isects = none →
      ∀ j u1 u2, isects j = .Intersection u1 u2 → ¬ 0 < u1) ∧
    ∀ c, minPosIsect isects = some c →
      isects c.1 = .Intersection c.2.1 c.2.2 ∧ 0 < c.2.1 ∧
      ∀ j u1 u2, isects j = .Intersection u1 u2 → 0 < u1 → c.2.1 ≤ u1 := by
  constructor
  · intro hnone j u1 u2 hj hpos
    rcases hc : minPosCands isects with _ | ⟨a, l⟩
    · have : (j, u1, u2) ∈ minPosCands isects :=
        (minPosCands_mem isects (j, u1, u2)).mpr ⟨hj, hpos⟩
      rw [hc] at this
      simp at this
    · obtain ⟨c, hfold, _, _, _⟩ := minPosStep_fold_some l a
      rw [minPosIsect, hc] at hnone
      simp only [List.foldl_cons, minPosStep] at hnone
      rw [hfold] at hnone
      exact Option.noConfusion hnone
  · intro c hc
    rcases hl : minPosCands isects with _ | ⟨a, l⟩
    · rw [minPosIsect, hl] at hc
      simp at hc
    · rw [minPosIsect, hl] at hc
      simp only [List.foldl_cons, minPosStep] at hc
      obtain ⟨c', hfold, hmem, hle, hall⟩ := minPosStep_fold_some l a
      rw [hfold] at hc
      have hceq : c' = c := Option.some_injective _ hc
      rw [hceq] at hmem hle hall
      have hcmem : c ∈ minPosCands isects := by
        rw [hl]
        rcases hmem with rfl | hm
        · exact List.mem_cons_self _ _
        · exact List.mem_cons_of_mem _ hm
      obtain ⟨hcis, hcpos⟩ := (minPosCands_mem isects c).mp hcmem
      refine ⟨hcis, hcpos, ?_⟩
      intro j u1 u2 hj hpos
      have hjmem : (j, u1, u2) ∈ minPosCands isects :=
        (minPosCands_mem isects (j, u1, u2)).mpr ⟨hj, hpos⟩
      rw [hl] at hjmem
      rcases List.mem_cons.mp hjmem with heq | hm
      · have : c.2.1 ≤ a.2.1 := hle
        rw [← heq] at this
        exact this
      · exact hall _ hm

/-- C5: in `split_triangle_by_segment`, when no edge yields a genuine
segment crossing, no edge comparison is `Colinear`, and both endpoints
classify `Inside`, the function splits on the edge whose intersection
has the smallest strictly positive first parameter; when no edge
intersection has a strictly positive first parameter it panics
(modelled by `none`), rather than returning a sentinel. -/
theorem C5_interior_segment (tri : Tri) (p0 p1 : Vec2)
    (hno : ∀ i : Fin 3, (edgeIsects tri p0 p1 i).is_line_line_isect = false)
    (hnc : ∀ i : Fin 3, edgeIsects tri p0 p1 i ≠ .Colinear)
    (v0 v1 : Vec3)
    (h0 : point_tri_comparison_test p0 tri = .Inside v0)
    (h1 : point_tri_comparison_test p1 tri = .Inside v1) :
    (minPosIsect (edgeIsects tri p0 p1) = none →
      split_triangle_by_segment tri p0 p1 = none ∧
      ∀ j u1 u2, edgeIsects tri p0 p1 j = .Intersection u1 u2 → ¬ 0 < u1) ∧
    ∀ c, minPosIsect (edgeIsects tri p0 p1) = some c →
      split_triangle_by_segment tri p0 p1 =
        (split_triangle_aux tri c.1 (edgeIsects tri p0 p1)).map .Split ∧
      edgeIsects tri p0 p1 c.1 = .Intersection c.2.1 c.2.2 ∧ 0 < c.2.1 ∧
      ∀ j u1 u2, edgeIsects tri p0 p1 j = .Intersection u1 u2 → 0 < u1 →
        c.2.1 ≤ u1 := by
  have hfl : firstLineLine (edgeIsects tri p0 p1) = none := by
    rw [firstLineLine, List.find?_eq_none]
    intro i _
    simp [hno i]
  have hcol : hasColinearEdge (edgeIsects tri p0 p1) = false := by
    rw [hasColinearEdge, decide_eq_false (hnc 0), decide_eq_false (hnc 1),
      decide_eq_false (hnc 2)]
    rfl
  constructor
  · intro hmin
    constructor
    · rw [split_triangle_by_segment]
      rw [hfl, hcol, h0, h1]
      simp only [splitCases, Bool.false_eq_true, if_false, hmin]
    · exact (minPosIsect_spec (edgeIsects tri p0 p1)).1 hmin
  · intro c hc
    have hspec := (minPosIsect_spec (edgeIsects tri p0 p1)).2 c hc
    refine ⟨?_, hspec.1, hspec.2.1, hspec.2.2⟩
    rw [split_triangle_by_segment]
    rw [hfl, hcol, h0, h1]
    simp only [splitCases, Bool.false_eq_true, if_false, hc]

/-- C5 witness: the concrete interior segment `(1,1) → (2,1)` inside
`bigTri` splits on edge 1, whose first parameter 8 is the only strictly
positive one, through `C5_interior_segment`. -/
theorem C5_witness :
    split_triangle_by_segment bigTri ⟨1, 1⟩ ⟨2, 1⟩ =
      (split_triangle_aux bigTri 1 (edgeIsects bigTri ⟨1, 1⟩ ⟨2, 1⟩)).map .Split ∧
    (0:ℚ) < 8 := by
  have h := (C5_interior_segment bigTri ⟨1, 1⟩ ⟨2, 1⟩
      (by with_unfolding_all decide) (by with_unfolding_all decide)
      ⟨4/5, 1/10, 1/10⟩ ⟨7/10, 1/5, 1/10⟩
      (by with_unfolding_all decide) (by with_unfolding_all decide)).2
      (1, 8, 1/10) (by with_unfolding_all decide)
  exact ⟨h.1, h.2.2.1⟩

/-- Helper: when the barycentric system is nonsingular, vertex 0 of the
triangle solves to weights `(1, 0, 0)`. -/
theorem bary_vertex0 (t : Tri) (h : baryDet t ≠ 0) :
    barycentric_coords ((t.p 0).xy) t = some ⟨1, 0, 0⟩ := by
  simp only [barycentric_coords]
  rw [if_neg h]
  refine congrArg some ?_
  simp only [Vec4.xy, Vec3.mk.injEq]
  refine ⟨?_, ?_, ?_⟩
  · rw [div_eq_one_iff_eq h]; simp only [baryDet]
  · rw [div_eq_zero_iff]; left; ring
  · rw [div_eq_zero_iff]; left; ring

/-- Helper: when the barycentric system is nonsingular, vertex 1 of the
triangle solves to weights `(0, 1, 0)`. -/
theorem bary_vertex1 (t : Tri) (h : baryDet t ≠ 0) :
    barycentric_coords ((t.p 1).xy) t = some ⟨0, 1, 0⟩ := by
  simp only [barycentric_coords]
  rw [if_neg h]
  refine congrArg some ?_
  simp only [Vec4.xy, Vec3.mk.injEq]
  refine ⟨?_, ?_, ?_⟩
  · rw [div_eq_zero_iff]; left; ring
  · rw [div_eq_one_iff_eq h]; simp only [baryDet]
  · rw [div_eq_zero_iff]; left; ring

/-- Helper: when the barycentric system is nonsingular, vertex 2 of the
triangle solves to weights `(0, 0, 1)`. -/
theorem bary_vertex2 (t : Tri) (h : baryDet t ≠ 0) :
    barycentric_coords ((t.p 2).xy) t = some ⟨0, 0, 1⟩ := by
  simp only [barycentric_coords]
  rw [if_neg h]
  refine congrArg some ?_
  simp only [Vec4.xy, Vec3.mk.injEq]
  refine ⟨?_, ?_, ?_⟩
  · rw [div_eq_zero_iff]; left; ring
  · rw [div_eq_zero_iff]; left; ring
  · rw [div_eq_one_iff_eq h]; simp only [baryDet]

/-- C9 (amended): `triangle_in_triangle_2d` is reflexive on every
triangle whose 2D barycentric system is nonsingular: each vertex solves
to a unit weight vector and classifies `On 1` (boundary-inclusive), so
the containment test answers `true`. -/
theorem C9_reflexive (t : Tri) (h : baryDet t ≠ 0) :
    triangle_in_triangle_2d t t = true := by
  have e0 : classifyBary ⟨1, 0, 0⟩ = .On 1 := by with_unfolding_all decide
  have e1 : classifyBary ⟨0, 1, 0⟩ = .On 1 := by with_unfolding_all decide
  have e2 : classifyBary ⟨0, 0, 1⟩ = .On 1 := by with_unfolding_all decide
  have c0 : point_tri_comparison_test ((t.p 0).xy) t = .On 1 := by
    simp [point_tri_comparison_test, bary_vertex0 t h, e0]
  have c1 : point_tri_comparison_test ((t.p 1).xy) t = .On 1 := by
    simp [point_tri_comparison_test, bary_vertex1 t h, e1]
  have c2 : point_tri_comparison_test ((t.p 2).xy) t = .On 1 := by
    simp [point_tri_comparison_test, bary_vertex2 t h, e2]
  simp [triangle_in_triangle_2d, List.finRange, c0, c1, c2]

/-- C9 witness: reflexivity of the containment test at the concrete
nondegenerate unit triangle, through `C9_reflexive`. -/
theorem C9_witness : triangle_in_triangle_2d unitTri unitTri = true :=
  C9_reflexive unitTri (by with_unfolding_all decide)

/-- C10 (counterexample): `render()` output can contain `Culled`
lines: a counter-clockwise, in-frustum triangle whose edges are tagged
`Culled` (submitted through the public `add_prim` escape hatch) is
accepted and flattened with its tags intact. -/
theorem C10_counterexample :
    (render idMat (-1, 1) [.tri culTri] 3).map
      (fun rp => rp.lines.map (fun l => l.edge)) =
      some [.Culled, .Culled, .Culled] := by
  with_unfolding_all decide

end Vectorfoil
